import Mathlib

/-!
Shallow embedding of the core of isearch.py (intel/initsearchtool): the
section/keyword data model, the Regex and Number matchers, the section
query algorithm, and the match-result filtering algebra, together with
proofs about the claims of the specification.

Python exceptions are modelled with an Except monad; Python strings are
Lean strings (operated on through their character lists); Python ints are
Lean Int.  Candidate strings are assumed newline free (they are single
stripped lines of an init.rc file), so the Python regex anchors and the
dot are modelled with plain end-of-string and any-character semantics.
-/

set_option maxHeartbeats 1000000

deriving instance DecidableEq for Except

namespace ISearch

/-- Python exception outcomes observable in the embedded fragment. -/
inductive PyError where
  | exception (msg : String)
  | valueError (msg : String)
  | systemExit (msg : String)
  | keyError (key : String)
  | indexError
deriving DecidableEq, Repr

/-- Truth of an Except value. -/
def exOk {ε α : Type} : Except ε α → Bool
  | .ok _ => true
  | .error _ => false

/-- Fold over a list in the Except monad, written by explicit recursion. -/
def efoldl {ε σ α : Type} (f : σ → α → Except ε σ) : σ → List α → Except ε σ
  | st, [] => .ok st
  | st, x :: xs =>
    match f st x with
    | .error e => .error e
    | .ok st₂ => efoldl f st₂ xs

/-- Values stored in a section keyword cell: parsed strings, the True of
boolean switch keywords, or an integer default. -/
inductive Value where
  | vstr (s : String)
  | vbool (b : Bool)
  | vint (n : Int)
deriving DecidableEq, Repr

/-- The numeric interpretation Python uses to compare booleans and
integers (True is 1, False is 0); irrelevant for strings. -/
def numVal : Value → Int
  | .vstr _ => 0
  | .vbool b => if b then 1 else 0
  | .vint n => n

/-- Python equality between stored values: strings compare by content and
only with strings, while booleans and integers compare numerically. -/
def pyEqValue : Value → Value → Bool
  | .vstr a, .vstr b => decide (a = b)
  | .vstr _, _ => false
  | _, .vstr _ => false
  | a, b => decide (numVal a = numVal b)

/-- SectionValue: a stored value together with the line number it was found
on (class SectionValue of isearch.py). -/
structure SectionValue where
  value : Value
  lineno : Int
deriving DecidableEq, Repr

/-- Python equality on SectionValue compares only the value field. -/
def svEq (a b : SectionValue) : Bool := pyEqValue a.value b.value

/-- The string form of a stored value (SectionValue.__str__): booleans are
lowercased, strings returned as is.  Integer values never occur in parsed
documents (the only integer default, 0, is falsy and never stored). -/
def SectionValue.str : SectionValue → String
  | ⟨.vbool b, _⟩ => if b then "true" else "false"
  | ⟨.vstr s, _⟩ => s
  | ⟨.vint n, _⟩ => toString n

/-- Number of members of a list equal (in the Python sense) to v. -/
def svCount (l : List SectionValue) (v : SectionValue) : Nat :=
  l.countP (fun x => svEq x v)

/-- Python membership test v in l for SectionValue lists. -/
def svListContains (l : List SectionValue) (v : SectionValue) : Bool :=
  l.any (fun x => svEq x v)

/-- Python list.remove: drop the first element equal to v, raising
ValueError when no element is equal. -/
def pyRemove : List SectionValue → SectionValue → Except PyError (List SectionValue)
  | [], _ => .error (.valueError "list.remove(x): x not in list")
  | x :: rest, v =>
    if svEq x v then .ok rest
    else
      match pyRemove rest v with
      | .error e => .error e
      | .ok rest₂ => .ok (x :: rest₂)

/-! ### Python int(s, 0) parsing -/

/-- Python whitespace characters stripped by int(). -/
def pyIsSpace (c : Char) : Bool :=
  c = ' ' ∨ c = '\t' ∨ c = '\n' ∨ c = '\x0b' ∨ c = '\x0c' ∨ c = '\r'

/-- Strip leading and trailing whitespace from a character list. -/
def pyStrip (cs : List Char) : List Char :=
  ((cs.dropWhile pyIsSpace).reverse.dropWhile pyIsSpace).reverse

/-- Decimal digit value. -/
def decVal (c : Char) : Option Nat :=
  if 48 ≤ c.toNat ∧ c.toNat ≤ 57 then some (c.toNat - 48) else none

/-- Octal digit value. -/
def octVal (c : Char) : Option Nat :=
  if 48 ≤ c.toNat ∧ c.toNat ≤ 55 then some (c.toNat - 48) else none

/-- Binary digit value. -/
def binVal (c : Char) : Option Nat :=
  if c.toNat = 48 ∨ c.toNat = 49 then some (c.toNat - 48) else none

/-- Hexadecimal digit value. -/
def hexVal (c : Char) : Option Nat :=
  if 48 ≤ c.toNat ∧ c.toNat ≤ 57 then some (c.toNat - 48)
  else if 97 ≤ c.toNat ∧ c.toNat ≤ 102 then some (c.toNat - 87)
  else if 65 ≤ c.toNat ∧ c.toNat ≤ 70 then some (c.toNat - 55)
  else none

/-- Parse a non-empty digit string in the given base. -/
def parseDigits (val : Char → Option Nat) (base : Nat) : List Char → Option Nat
  | [] => none
  | cs => cs.foldlM (fun a c => (val c).map (fun v => a * base + v)) 0

/-- Magnitude part of Python 2 int(s, 0): 0x/0X hex, 0b/0B binary,
0o/0O octal, a further leading zero means octal, else decimal. -/
def pyIntMag : List Char → Option Nat
  | '0' :: c :: rest =>
    if c = 'x' ∨ c = 'X' then parseDigits hexVal 16 rest
    else if c = 'b' ∨ c = 'B' then parseDigits binVal 2 rest
    else if c = 'o' ∨ c = 'O' then parseDigits octVal 8 rest
    else parseDigits octVal 8 (c :: rest)
  | cs => parseDigits decVal 10 cs

/-- Python 2 int(s, 0) on a character list: strip whitespace, optional
sign, then the base-flexible magnitude. -/
def pyIntL (cs : List Char) : Option Int :=
  match pyStrip cs with
  | '+' :: rest => (pyIntMag rest).map (fun n => (n : Int))
  | '-' :: rest => (pyIntMag rest).map (fun n => -(n : Int))
  | stripped => (pyIntMag stripped).map (fun n => (n : Int))

/-- Python 2 int(s, 0) on a string. -/
def pyInt (s : String) : Option Int := pyIntL s.data

/-! ### NumberMatcher -/

/-- The comparison operators of NumberMatcher. -/
inductive NumOp where
  | eq | ne | le | ge | gt | lt
deriving DecidableEq, Repr

/-- NumberMatcher state: an operator with operand, or membership of the
half-open Python range(lo, hi). -/
inductive NumberMatcher where
  | op (o : NumOp) (value : Int)
  | inRange (lo hi : Int)
deriving DecidableEq, Repr

/-- Does one character list start with another (plain character equality)? -/
def lcStarts : List Char → List Char → Bool
  | [], _ => true
  | _ :: _, [] => false
  | a :: as, b :: bs => decide (a = b) && lcStarts as bs

/-- Helper of NumberMatcher._handle_operator: parse the operand following a
recognized operator, failing with ValueError when it is not a number. -/
def opWithRest (o : NumOp) (rest : List Char) : Except PyError NumberMatcher :=
  match pyIntL rest with
  | some v => .ok (.op o v)
  | none =>
    .error (.valueError ("Attempted operator, but failed. Expected a number, got: "
      ++ String.mk rest))

/-- NumberMatcher._handle_operator: coerce a bare number to an equality,
then match the operator by longest-first startswith tests. -/
def handleOperator (matcher : String) : Except PyError NumberMatcher :=
  let m := if (pyInt matcher).isSome then "==" ++ matcher else matcher
  let d := m.data
  if lcStarts ['=', '='] d then opWithRest .eq (d.drop 2)
  else if lcStarts ['!', '='] d then opWithRest .ne (d.drop 2)
  else if lcStarts ['<', '='] d then opWithRest .le (d.drop 2)
  else if lcStarts ['>', '='] d then opWithRest .ge (d.drop 2)
  else if lcStarts ['>'] d then opWithRest .gt (d.drop 1)
  else if lcStarts ['<'] d then opWithRest .lt (d.drop 1)
  else .error (.valueError ("Unknown operator in " ++ m))

/-- Python str.split with a comma separator, keeping empty chunks. -/
def splitOnComma : List Char → List (List Char)
  | [] => [[]]
  | c :: rest =>
    if c = ',' then [] :: splitOnComma rest
    else
      match splitOnComma rest with
      | h :: t => (c :: h) :: t
      | [] => [[c]]

/-- NumberMatcher._handle_range: a two-element comma range; equal bounds
collapse to equality, otherwise the bounds are sorted and membership of
range(lo, hi) is used.  Malformed ranges call sys.exit. -/
def handleRange (matcher : String) : Except PyError NumberMatcher :=
  let chunks := splitOnComma matcher.data
  if chunks.length ≠ 2 then
    .error (.systemExit ("Expected valid range x,b no spaces, got: " ++ matcher))
  else
    match chunks with
    | [c₁, c₂] =>
      match pyIntL c₁ with
      | none => .error (.systemExit "Expected range number to be a number")
      | some a =>
        match pyIntL c₂ with
        | none => .error (.systemExit "Expected range number to be a number")
        | some b =>
          if a = b then .ok (.op .eq a)
          else if b < a then .ok (.inRange b a)
          else .ok (.inRange a b)
    | _ => .error (.systemExit "unreachable")

/-- NumberMatcher.__init__: a comma selects range parsing, anything else
operator parsing.  The lazy flag is unused, kept for the interface. -/
def mkNumberMatcher (matcher : String) (_lazyRegex : Bool) : Except PyError NumberMatcher :=
  if matcher.data.contains ',' then handleRange matcher else handleOperator matcher

/-- NumberMatcher.match on a string candidate: the candidate is coerced
with int(candidate, 0), raising ValueError when it does not parse, and the
stored operator or range membership is evaluated. -/
def NumberMatcher.match (nm : NumberMatcher) (number : String) : Except PyError Bool :=
  match pyInt number with
  | none => .error (.valueError ("invalid literal for int() with base 0: " ++ number))
  | some n =>
    .ok (match nm with
      | .op .lt v => decide (n < v)
      | .op .le v => decide (n ≤ v)
      | .op .eq v => decide (n = v)
      | .op .ne v => decide (n ≠ v)
      | .op .gt v => decide (v < n)
      | .op .ge v => decide (v ≤ n)
      | .inRange lo hi => decide (lo ≤ n ∧ n < hi))

/-! ### Regular expressions (the fragment of the re module used here) -/

/-- Abstract syntax of the regular expressions the tool builds: literal
characters, the any-character dot, concatenation, alternation (used by the
derivative engine), and Kleene star. -/
inductive Regex where
  | emptyset
  | eps
  | chr (c : Char)
  | dot
  | cat (r₁ r₂ : Regex)
  | alt (r₁ r₂ : Regex)
  | star (r : Regex)
deriving DecidableEq, Repr

/-- Language membership for the regex fragment.  Star is generated by
non-empty chunks, which yields the usual Kleene star language. -/
inductive RMem : List Char → Regex → Prop where
  | epsM : RMem [] .eps
  | chrM (c : Char) : RMem [c] (.chr c)
  | dotM (c : Char) : RMem [c] .dot
  | catM {s₁ s₂ : List Char} {r₁ r₂ : Regex} :
      RMem s₁ r₁ → RMem s₂ r₂ → RMem (s₁ ++ s₂) (.cat r₁ r₂)
  | altL {s : List Char} {r₁ r₂ : Regex} : RMem s r₁ → RMem s (.alt r₁ r₂)
  | altR {s : List Char} {r₁ r₂ : Regex} : RMem s r₂ → RMem s (.alt r₁ r₂)
  | starNil {r : Regex} : RMem [] (.star r)
  | starCons {s₁ s₂ : List Char} {r : Regex} :
      s₁ ≠ [] → RMem s₁ r → RMem s₂ (.star r) → RMem (s₁ ++ s₂) (.star r)

/-- Does the regex accept the empty string? -/
def Regex.nullable : Regex → Bool
  | .emptyset => false
  | .eps => true
  | .chr _ => false
  | .dot => false
  | .cat r₁ r₂ => r₁.nullable && r₂.nullable
  | .alt r₁ r₂ => r₁.nullable || r₂.nullable
  | .star _ => true

/-- Brzozowski derivative with respect to one character. -/
def Regex.deriv : Regex → Char → Regex
  | .emptyset, _ => .emptyset
  | .eps, _ => .emptyset
  | .chr c, x => if x = c then .eps else .emptyset
  | .dot, _ => .eps
  | .cat r₁ r₂, x =>
    if r₁.nullable then .alt (.cat (r₁.deriv x) r₂) (r₂.deriv x)
    else .cat (r₁.deriv x) r₂
  | .alt r₁ r₂, x => .alt (r₁.deriv x) (r₂.deriv x)
  | .star r, x => .cat (r.deriv x) (.star r)

/-- Executable full-string acceptance by iterated derivatives.  This plays
the role of matching the pattern anchored at both ends. -/
def Regex.accepts : Regex → List Char → Bool
  | r, [] => r.nullable
  | r, c :: s => (r.deriv c).accepts s

/-- Characters the embedded regex parser treats as plain literals. -/
def plainChar (c : Char) : Bool :=
  c.isAlphanum || c = ' ' || c = '-' || c = '_' || c = '/' || c = ':' || c = '='

/-- Is the regex a starred atom (used to reject a multiple repeat)? -/
def Regex.isStar : Regex → Bool
  | .star _ => true
  | _ => false

/-- One pass of the regex parser: consume characters left to right keeping
a reversed stack of atoms; a star binds to the preceding atom and a star
of a star (multiple repeat) is a compile error, as are characters outside
the supported fragment. -/
def reParseAux : List Char → List Regex → Option (List Regex)
  | [], acc => some acc
  | c :: rest, acc =>
    if c = '*' then
      match acc with
      | [] => none
      | a :: acc₂ => if a.isStar then none else reParseAux rest (.star a :: acc₂)
    else if c = '.' then reParseAux rest (.dot :: acc)
    else if plainChar c then reParseAux rest (.chr c :: acc)
    else none

/-- Assemble a reversed atom stack into a right-nested concatenation. -/
def assemble (acc : List Regex) : Regex :=
  acc.reverse.foldr .cat .eps

/-- Compile a pattern string of the supported fragment (re.compile). -/
def reParse (s : String) : Option Regex :=
  (reParseAux s.data []).map assemble

/-- RegexMatcher state: the compiled, anchored regular expression. -/
structure RegexMatcher where
  matcher : Regex
deriving DecidableEq, Repr

/-- RegexMatcher.__init__: unless lazy, the pattern is wrapped in .* on
both sides; the caret and dollar anchoring is realized by the full-string
acceptance of the engine.  A pattern outside the supported fragment is a
compile error. -/
def mkRegexMatcher (regexStr : String) (lazyRegex : Bool) : Except PyError RegexMatcher :=
  let wrapped := if lazyRegex then regexStr else ".*" ++ regexStr ++ ".*"
  match reParse wrapped with
  | some r => .ok ⟨r⟩
  | none => .error (.valueError ("error in regex " ++ wrapped))

/-- RegexMatcher.match: full-string acceptance of the anchored regex. -/
def RegexMatcher.match (m : RegexMatcher) (other : String) : Bool :=
  m.matcher.accepts other.data

/-- Construction and match of a RegexMatcher collapsed to one boolean:
false when construction fails or the candidate is rejected. -/
def regexAcc (p : String) (lazyRegex : Bool) (cand : String) : Bool :=
  match mkRegexMatcher p lazyRegex with
  | .ok m => m.match cand
  | .error _ => false

/-! ### Section keyword cells -/

/-- Which matcher class a keyword is registered with. -/
inductive MatcherKind where
  | regex
  | number
deriving DecidableEq, Repr

/-- A constructed matcher of either kind. -/
inductive Matcher where
  | regexM (m : RegexMatcher)
  | numberM (nm : NumberMatcher)
deriving DecidableEq, Repr

/-- Construct the matcher registered for a keyword from a search term. -/
def mkMatcher (kind : MatcherKind) (term : String) (lazyRegex : Bool) :
    Except PyError Matcher :=
  match kind with
  | .regex =>
    match mkRegexMatcher term lazyRegex with
    | .ok m => .ok (.regexM m)
    | .error e => .error e
  | .number =>
    match mkNumberMatcher term lazyRegex with
    | .ok nm => .ok (.numberM nm)
    | .error e => .error e

/-- Run a constructed matcher on a candidate string.  A regex match never
raises; a number match raises ValueError on a non-numeric candidate. -/
def Matcher.matchStr : Matcher → String → Except PyError Bool
  | .regexM m, s => .ok (m.match s)
  | .numberM nm, s => nm.match s

/-- Python types of the keyword defaults used by the schemas. -/
inductive PyType where
  | noneType
  | strType
  | boolType
  | intType
deriving DecidableEq, Repr

/-- The default argument of a SectionKeywordValues constructor. -/
inductive PyDefault where
  | none
  | str (s : String)
  | bool (b : Bool)
  | int (n : Int)
deriving DecidableEq, Repr

/-- Python type of a default. -/
def PyDefault.ptype : PyDefault → PyType
  | .none => .noneType
  | .str _ => .strType
  | .bool _ => .boolType
  | .int _ => .intType

/-- Python truthiness of a default. -/
def PyDefault.truthy : PyDefault → Bool
  | .none => false
  | .str s => !s.isEmpty
  | .bool b => b
  | .int n => decide (n ≠ 0)

/-- The stored value of a truthy default. -/
def PyDefault.toValue : PyDefault → Value
  | .none => .vstr ""
  | .str s => .vstr s
  | .bool b => .vbool b
  | .int n => .vint n

/-- SectionKeywordValues: one keyword slot of a section, with its schema
metadata and the ordered list of stored values. -/
structure SectionKeywordValues where
  keyword : String
  defaultType : PyType
  isAppendable : Bool
  isSet : Bool
  isDefaultPrintable : Bool
  matcherKind : MatcherKind
  values : List SectionValue
deriving DecidableEq, Repr

/-- SectionKeywordValues.__init__: a truthy default is stored with line
number -1, is_set starts false. -/
def mkSectionKeywordValues (keyword : String) (default : PyDefault)
    (isAppendable isDefaultPrintable : Bool) (matcherKind : MatcherKind) :
    SectionKeywordValues :=
  { keyword := keyword
    defaultType := default.ptype
    isAppendable := isAppendable
    isSet := false
    isDefaultPrintable := isDefaultPrintable
    matcherKind := matcherKind
    values := if default.truthy then [⟨default.toValue, -1⟩] else [] }

/-- SectionKeywordValues.push: a second push into a non-appendable cell
that is already set raises; boolean-typed cells store True regardless of
the pushed value; appendable cells append, others replace. -/
def SectionKeywordValues.push (s : SectionKeywordValues) (value : Value) (lineno : Int) :
    Except PyError SectionKeywordValues :=
  if !s.isAppendable && s.isSet then
    .error (.exception ("Expected " ++ s.keyword ++ " keyword to only appear once"))
  else
    let value := if s.defaultType = .boolType then .vbool true else value
    let item : SectionValue := ⟨value, lineno⟩
    let values := if s.isAppendable then s.values ++ [item] else [item]
    .ok { s with values := values, isSet := true }

/-- SectionKeywordValues.reset: clear the values and the set flag. -/
def SectionKeywordValues.reset (s : SectionKeywordValues) : SectionKeywordValues :=
  { s with values := [], isSet := false }

/-! ### Option maps (Python dicts keyed by keyword) -/

/-- An option map: keyword to cell, insertion ordered with unique keys. -/
abbrev OptionMap := List (String × SectionKeywordValues)

/-- Dict lookup on an association list. -/
def alookup {α : Type} : List (String × α) → String → Option α
  | [], _ => none
  | (k₂, v) :: rest, k => if k = k₂ then some v else alookup rest k

/-- Dict store on an association list: replace in place or append. -/
def aupdate {α : Type} : List (String × α) → String → α → List (String × α)
  | [], k, v => [(k, v)]
  | (k₂, v₂) :: rest, k, v =>
    if k = k₂ then (k, v) :: rest else (k₂, v₂) :: aupdate rest k v

/-! ### The service section schema and its push -/

/-- Python str.split() on runs of whitespace, dropping empty chunks. -/
def wsSplitAux : List Char → List Char → List (List Char)
  | [], cur => if cur.isEmpty then [] else [cur.reverse]
  | c :: rest, cur =>
    if pyIsSpace c then
      if cur.isEmpty then wsSplitAux rest [] else cur.reverse :: wsSplitAux rest []
    else wsSplitAux rest (c :: cur)

/-- Whitespace split of a string. -/
def wsSplit (s : String) : List (List Char) := wsSplitAux s.data []

/-- Join chunks with single spaces (the re-join of a service line rest). -/
def joinSpace : List (List Char) → List Char
  | [] => []
  | [c] => c
  | c :: rest => c ++ ' ' :: joinSpace rest

/-- The keyword of a service option line, when the line is non-blank. -/
def lineKeyword (line : String) : Option String :=
  match wsSplit line with
  | [] => Option.none
  | kw :: _ => some (String.mk kw)

/-- The service section keyword schema (ServiceSection._keywords joined
with the base args cell). -/
def serviceKeymap : OptionMap :=
  [ ("args", mkSectionKeywordValues "args" .none true false .regex),
    ("console", mkSectionKeywordValues "console" (.bool false) false false .regex),
    ("critical", mkSectionKeywordValues "critical" (.bool false) false false .regex),
    ("disabled", mkSectionKeywordValues "disabled" (.bool false) false false .regex),
    ("setenv", mkSectionKeywordValues "setenv" .none true false .regex),
    ("getenv", mkSectionKeywordValues "getenv" .none true false .regex),
    ("socket", mkSectionKeywordValues "socket" .none true false .regex),
    ("user", mkSectionKeywordValues "user" (.str "root") false true .regex),
    ("group", mkSectionKeywordValues "group" (.str "root") false true .regex),
    ("seclabel", mkSectionKeywordValues "seclabel" .none false false .regex),
    ("oneshot", mkSectionKeywordValues "oneshot" (.bool false) false false .regex),
    ("class", mkSectionKeywordValues "class" (.str "default") false false .regex),
    ("ioprio", mkSectionKeywordValues "ioprio" .none false false .regex),
    ("onrestart", mkSectionKeywordValues "onrestart" .none true false .regex),
    ("writepid", mkSectionKeywordValues "writepid" .none true false .regex),
    ("keycodes", mkSectionKeywordValues "keycodes" .none true false .regex),
    ("priority", mkSectionKeywordValues "priority" (.int 0) false false .number),
    ("start", mkSectionKeywordValues "start" .none false false .regex) ]

/-- ServiceSection.push: split the line on whitespace, the first chunk is
the keyword and the rest re-joined is the value; an unknown keyword calls
sys.exit, a known one is pushed into its cell. -/
def servicePush (optionMap : OptionMap) (line : String) (lineno : Int) :
    Except PyError OptionMap :=
  match wsSplit line with
  | [] => .error .indexError
  | kw :: rest =>
    let keyword := String.mk kw
    let args := String.mk (joinSpace rest)
    match alookup optionMap keyword with
    | Option.none =>
      .error (.systemExit ("Invalid service option: " ++ keyword ++ " on line: "
        ++ toString lineno))
    | some skv =>
      match skv.push (.vstr args) lineno with
      | .error e => .error e
      | .ok skv₂ => .ok (aupdate optionMap keyword skv₂)

/-! ### The section match algorithm -/

/-- A query value: a single pattern string or a list of pattern strings. -/
inductive SearchVal where
  | single (s : String)
  | many (l : List String)
deriving DecidableEq, Repr

/-- Normalization of a query value to a pattern list. -/
def SearchVal.norm : SearchVal → List String
  | .single s => [s]
  | .many l => l

/-- One (stored value, search term) step of Section._section_cmp: build
the matcher, run it, and on success bump the found counter and push the
value into the (possibly freshly reset) submatch cell. -/
def cmpPairStep (skv : SectionKeywordValues) (key : String) (lazyRegex : Bool)
    (v : SectionValue) (st : Nat × OptionMap) (term : String) :
    Except PyError (Nat × OptionMap) :=
  match mkMatcher skv.matcherKind term lazyRegex with
  | .error e => .error e
  | .ok matcher =>
    match matcher.matchStr v.str with
    | .error e => .error e
    | .ok result =>
      if result then
        let cell :=
          match alookup st.2 key with
          | some c => c
          | Option.none => skv.reset
        match cell.push v.value v.lineno with
        | .error e => .error e
        | .ok cell₂ => .ok (st.1 + 1, aupdate st.2 key cell₂)
      else .ok st

/-- The double loop of Section._section_cmp for one query keyword: outer
over stored values, inner over search terms. -/
def cmpInner (skv : SectionKeywordValues) (key : String) (lazyRegex : Bool)
    (patterns : List String) (st : Nat × OptionMap) : Except PyError (Nat × OptionMap) :=
  efoldl (fun st₂ v => efoldl (fun st₃ t => cmpPairStep skv key lazyRegex v st₃ t) st₂ patterns)
    st skv.values

/-- Section._section_cmp over the query keywords: a missing cell is a
KeyError, an empty cell or an uncovered keyword yields -1, and a completed
pass returns the precomputed key-count comparator. -/
def sectionCmpAux (optionMap : OptionMap) (keyCmp : Int) (lazyRegex : Bool) :
    List (String × SearchVal) → OptionMap → Except PyError (Int × OptionMap)
  | [], subs => .ok (keyCmp, subs)
  | (key, sval) :: rest, subs =>
    match alookup optionMap key with
    | Option.none => .error (.keyError key)
    | some skv =>
      if skv.values.isEmpty then .ok (-1, subs)
      else
        let patterns := sval.norm
        match cmpInner skv key lazyRegex patterns (0, subs) with
        | .error e => .error e
        | .ok (found, subs₂) =>
          if found < patterns.length then .ok (-1, subs₂)
          else sectionCmpAux optionMap keyCmp lazyRegex rest subs₂

/-- Section._section_cmp: the comparator is 0 for equal key counts, 1 when
the section schema has more keys, and -1 for no match. -/
def sectionCmp (optionMap : OptionMap) (searchDict : List (String × SearchVal))
    (lazyRegex : Bool) : Except PyError (Int × OptionMap) :=
  let keyCmp : Int :=
    if optionMap.length = (searchDict.map Prod.fst).eraseDups.length then 0 else 1
  sectionCmpAux optionMap keyCmp lazyRegex searchDict []

/-- A parsed section: a Python object identity, header data, and the per
keyword option map. -/
structure PySection where
  oid : Nat
  name : String
  path : String
  lineno : Int
  optionMap : OptionMap
deriving DecidableEq, Repr

/-- A match result: the matched section (by identity) and the submatch
cells built during the comparison. -/
structure SubMatches where
  sectionId : Nat
  submatches : OptionMap
deriving DecidableEq, Repr

/-- Section.match: wrap a non-negative comparison into a SubMatches. -/
def PySection.match (sec : PySection) (searchDict : List (String × SearchVal))
    (lazyRegex : Bool) : Except PyError (Option SubMatches) :=
  match sectionCmp sec.optionMap searchDict lazyRegex with
  | .error e => .error e
  | .ok (cmp, subs) => .ok (if 0 ≤ cmp then some ⟨sec.oid, subs⟩ else Option.none)

/-! ### The match-result algebra: equality, hash, filter -/

/-- SubMatches.__eq__: same section identity and every keyword of the
other submatch dict present among the keys of this one. -/
def SubMatches.beq (self other : SubMatches) : Bool :=
  if self.sectionId ≠ other.sectionId then false
  else (other.submatches.map Prod.fst).all
    (fun k => (self.submatches.map Prod.fst).any (fun k₂ => decide (k₂ = k)))

/-- SubMatches.__hash__: the hash of the section identity alone. -/
def SubMatches.hash (m : SubMatches) : Nat := m.sectionId

/-- The inner removal loop of SubMatches.filter for one shared keyword:
for each exception value that occurs in the original found list, remove
one equal occurrence from the working copy (ValueError when exhausted). -/
def removeFold (origvals : List SectionValue) (sub : List SectionValue)
    (fvals : List SectionValue) : Except PyError (List SectionValue) :=
  efoldl
    (fun sub₂ value =>
      if svListContains origvals value then pyRemove sub₂ value else .ok sub₂)
    sub fvals

/-- One shared keyword of SubMatches.filter: run the removal loop from a
copy of the found list and keep the remainder only when non-empty. -/
def filterKeyStep (subs fltr : OptionMap) (left : List (String × List SectionValue))
    (key : String) : Except PyError (List (String × List SectionValue)) :=
  match alookup fltr key with
  | Option.none => .error (.keyError key)
  | some fkv =>
    match alookup subs key with
    | Option.none => .error (.keyError key)
    | some skv =>
      match removeFold skv.values skv.values fkv.values with
      | .error e => .error e
      | .ok sub => .ok (if 0 < sub.length then left ++ [(key, sub)] else left)

/-- SubMatches.filter: intersect the keyword sets, and for each shared
keyword remove from a copy of the found list one occurrence per exception
value that occurs in the original found list; keywords whose remainder is
empty are dropped.  Returns the new submatch map (which the Python code
assigns in place over found.submatches) and the emptiness flag returned to
the caller. -/
def SubMatches.filter (found exc : SubMatches) :
    Except PyError (List (String × List SectionValue) × Bool) :=
  let subs := found.submatches
  let fltr := exc.submatches
  let keys := (subs.map Prod.fst).filter
    (fun k => (fltr.map Prod.fst).any (fun k₂ => decide (k₂ = k)))
  match efoldl (filterKeyStep subs fltr) [] keys with
  | .error e => .error e
  | .ok left => .ok (left, left.isEmpty)

/-! ### Specification-side notions used to state the claims -/

/-- Acceptance of one (search term, stored value) pair by the designated
matcher of a keyword, collapsed to a boolean: construction failures and
match-time errors count as non-acceptance. -/
def matcherAccepts (kind : MatcherKind) (term : String) (lazyRegex : Bool)
    (cand : String) : Bool :=
  match mkMatcher kind term lazyRegex with
  | .ok m =>
    match m.matchStr cand with
    | .ok b => b
    | .error _ => false
  | .error _ => false

/-- The coverage count of a cell against a pattern list: one per (stored
value, pattern) pair the keyword matcher accepts. -/
def coverageCount (skv : SectionKeywordValues) (patterns : List String)
    (lazyRegex : Bool) : Nat :=
  (skv.values.map (fun v =>
    (patterns.map (fun t => if matcherAccepts skv.matcherKind t lazyRegex v.str
      then 1 else 0)).sum)).sum

/-- The per-keyword coverage condition of the claim on Section.match: the
cell exists, holds at least one value, and the coverage count reaches the
number of requested patterns. -/
def covOKb (optionMap : OptionMap) (query : List (String × SearchVal))
    (lazyRegex : Bool) : Bool :=
  query.all (fun kv =>
    match alookup optionMap kv.1 with
    | Option.none => false
    | some skv =>
      !skv.values.isEmpty &&
        decide (kv.2.norm.length ≤ coverageCount skv kv.2.norm lazyRegex))

/-- The equality relation the specification ascribes to Match Results:
same section identity and, for every keyword of the other submatch map, an
equal entry in this one. -/
def subMatchesEqSpec (self other : SubMatches) : Prop :=
  self.sectionId = other.sectionId ∧
  ∀ k entry, alookup other.submatches k = some entry →
    ∃ entry₂, alookup self.submatches k = some entry₂ ∧ entry₂ = entry

/-! ### Basic lemmas about the embedded operations -/

theorem alookup_aupdate_self {α : Type} (m : List (String × α)) (k : String) (v : α) :
    alookup (aupdate m k v) k = some v := by
  induction m with
  | nil => simp [aupdate, alookup]
  | cons h t ih =>
    obtain ⟨k₂, v₂⟩ := h
    by_cases hk : k = k₂
    · simp [aupdate, alookup, hk]
    · simp [aupdate, alookup, hk, ih]

theorem push_ok_of_not_set (s : SectionKeywordValues) (v : Value) (ln : Int)
    (h : s.isSet = false) :
    ∃ s₂, s.push v ln = .ok s₂ ∧ s₂.isSet = true ∧
      s₂.isAppendable = s.isAppendable ∧ s₂.keyword = s.keyword := by
  unfold SectionKeywordValues.push
  rw [h, Bool.and_false]
  exact ⟨_, rfl, rfl, rfl, rfl⟩

theorem push_err_of_set (s : SectionKeywordValues) (v : Value) (ln : Int)
    (h₁ : s.isAppendable = false) (h₂ : s.isSet = true) :
    s.push v ln =
      .error (.exception ("Expected " ++ s.keyword ++ " keyword to only appear once")) := by
  unfold SectionKeywordValues.push
  rw [h₁, h₂]
  rfl

theorem push_ok_flags (s s₂ : SectionKeywordValues) (v : Value) (ln : Int)
    (h : s.push v ln = .ok s₂) :
    s₂.isSet = true ∧ s₂.isAppendable = s.isAppendable := by
  unfold SectionKeywordValues.push at h
  by_cases hc : (!s.isAppendable && s.isSet) = true
  · rw [if_pos hc] at h
    cases h
  · rw [if_neg hc] at h
    have h₂ := Except.ok.inj h
    rw [← h₂]
    exact ⟨rfl, rfl⟩

theorem matcherAccepts_true_iff (kind : MatcherKind) (t : String) (lz : Bool) (c : String) :
    matcherAccepts kind t lz c = true ↔
      ∃ m, mkMatcher kind t lz = .ok m ∧ m.matchStr c = .ok true := by
  unfold matcherAccepts
  cases h : mkMatcher kind t lz with
  | error e =>
    simp only [h]
    constructor
    · intro hb
      cases hb
    · rintro ⟨m, hm, -⟩
      cases hm
  | ok m =>
    simp only [h]
    cases h₂ : m.matchStr c with
    | error e =>
      simp only [h₂]
      constructor
      · intro hb
        cases hb
      · rintro ⟨m₂, hm₂, hmm⟩
        cases hm₂
        rw [h₂] at hmm
        cases hmm
    | ok b =>
      simp only [h₂]
      constructor
      · intro hb
        exact ⟨m, rfl, by rw [h₂, hb]⟩
      · rintro ⟨m₂, hm₂, hmm⟩
        cases hm₂
        rw [h₂] at hmm
        exact Except.ok.inj hmm

/-! ### Claim C7: malformed NumberMatcher expressions -/

/-- Claim C7 (code bug evidence).  Constructing a NumberMatcher from the
empty string, an unknown operator, or an operator without an operand fails
with a ValueError raised to the caller, exactly as the claim and the class
docstring state; but a malformed comma range does not: it calls sys.exit,
which aborts the whole run instead of surfacing a query-level failure. -/
theorem c7_matcher_construction_failures :
    mkNumberMatcher "" false = .error (.valueError "Unknown operator in ") ∧
    mkNumberMatcher "lkshfskljdhhf" false =
      .error (.valueError "Unknown operator in lkshfskljdhhf") ∧
    mkNumberMatcher "=)" false = .error (.valueError "Unknown operator in =)") ∧
    mkNumberMatcher "#=" false = .error (.valueError "Unknown operator in #=") ∧
    mkNumberMatcher "==" false =
      .error (.valueError
        "Attempted operator, but failed. Expected a number, got: ") ∧
    mkNumberMatcher "1,2,3" false =
      .error (.systemExit "Expected valid range x,b no spaces, got: 1,2,3") ∧
    (∀ msg, mkNumberMatcher "1,2,3" false ≠ .error (.valueError msg)) := by
  refine ⟨by decide, by decide, by decide, by decide, by decide, by decide, ?_⟩
  intro msg h
  rw [show mkNumberMatcher "1,2,3" false =
    .error (.systemExit "Expected valid range x,b no spaces, got: 1,2,3") from by decide] at h
  cases h

/-! ### Claim C10: NumberMatcher.match is partial over strings -/

/-- Claim C10.  For every constructed NumberMatcher, a candidate string
that int(candidate, 0) does not parse makes match raise ValueError rather
than report a non-match. -/
theorem c10_number_match_partial (expr : String) (lz : Bool) (nm : NumberMatcher)
    (cand : String) (_hmk : mkNumberMatcher expr lz = .ok nm)
    (hbad : pyInt cand = none) :
    nm.match cand =
      .error (.valueError ("invalid literal for int() with base 0: " ++ cand)) := by
  unfold NumberMatcher.match
  rw [hbad]

/-- Witness for C10 at the constructed matcher ==0 and candidate abc. -/
theorem c10_witness :
    (NumberMatcher.op .eq 0).match "abc" =
      .error (.valueError ("invalid literal for int() with base 0: " ++ "abc")) :=
  c10_number_match_partial "==0" false (.op .eq 0) "abc" (by decide) (by decide)

/-! ### Claim C6: two-element comma ranges -/

theorem handleRange_eq (s : String) (c₁ c₂ : List Char)
    (hsplit : splitOnComma s.data = [c₁, c₂]) :
    handleRange s =
      match pyIntL c₁ with
      | none => .error (.systemExit "Expected range number to be a number")
      | some a =>
        match pyIntL c₂ with
        | none => .error (.systemExit "Expected range number to be a number")
        | some b =>
          if a = b then .ok (.op .eq a)
          else if b < a then .ok (.inRange b a)
          else .ok (.inRange a b) := by
  unfold handleRange
  rw [hsplit]
  rfl

/-- Claim C6.  A NumberMatcher built from a comma expression of exactly
two integers collapses to equality when the bounds coincide and otherwise
matches exactly the half-open interval between the sorted bounds. -/
theorem c6_range_matcher (s : String) (lz : Bool) (c₁ c₂ : List Char) (a b : Int)
    (hc : s.data.contains ',' = true)
    (hsplit : splitOnComma s.data = [c₁, c₂])
    (ha : pyIntL c₁ = some a) (hb : pyIntL c₂ = some b) :
    ∃ nm, mkNumberMatcher s lz = .ok nm ∧
      ∀ (cand : String) (n : Int), pyInt cand = some n →
        nm.match cand =
          .ok (decide (if a = b then n = a else min a b ≤ n ∧ n < max a b)) := by
  have hmk : mkNumberMatcher s lz = handleRange s := by
    unfold mkNumberMatcher
    rw [hc]
    rfl
  rw [hmk, handleRange_eq s c₁ c₂ hsplit]
  simp only [ha, hb]
  by_cases hab : a = b
  · rw [if_pos hab]
    refine ⟨.op .eq a, rfl, ?_⟩
    intro cand n hn
    unfold NumberMatcher.match
    rw [hn]
    simp [hab]
  · rw [if_neg hab]
    by_cases hba : b < a
    · rw [if_pos hba]
      refine ⟨.inRange b a, rfl, ?_⟩
      intro cand n hn
      unfold NumberMatcher.match
      rw [hn]
      have hmin : min a b = b := min_eq_right (le_of_lt hba)
      have hmax : max a b = a := max_eq_left (le_of_lt hba)
      simp [hab, hmin, hmax]
    · rw [if_neg hba]
      refine ⟨.inRange a b, rfl, ?_⟩
      intro cand n hn
      unfold NumberMatcher.match
      rw [hn]
      have hle : a ≤ b := not_lt.mp hba
      have hmin : min a b = a := min_eq_left hle
      have hmax : max a b = b := max_eq_right hle
      simp [hab, hmin, hmax]

/-- Witness for C6 at the unsorted hexadecimal range 0x10,0x3. -/
theorem c6_witness :
    ∃ nm, mkNumberMatcher "0x10,0x3" false = .ok nm ∧
      ∀ (cand : String) (n : Int), pyInt cand = some n →
        nm.match cand =
          .ok (decide (if (16 : Int) = 3 then n = 16
            else min (16 : Int) 3 ≤ n ∧ n < max (16 : Int) 3)) :=
  c6_range_matcher "0x10,0x3" false "0x10".data "0x3".data 16 3
    (by decide) (by decide) (by decide) (by decide)

/-! ### Claim C1: duplicate pushes into Service sections -/

/-- The user keyword pushed twice into a fresh service option map. -/
def servicePushTwice : Except PyError OptionMap :=
  match servicePush serviceKeymap "user a" 2 with
  | .error e => .error e
  | .ok m => servicePush m "user b" 3

/-- Counterexample to claim C1 as stated: pushing a value for the
non-repeatable user keyword of a Service section a second time does not
overwrite; it raises the duplicate-single-value exception. -/
theorem c1_counterexample :
    servicePushTwice =
      .error (.exception "Expected user keyword to only appear once") := by
  decide

/-- Claim C1 amended: for every Service option map, pushing a second line
for a non-repeatable keyword after a successful first push fails with the
duplicate-single-value exception, the same policy as the other
variants. -/
theorem c1_amended (m : OptionMap) (line₁ line₂ kw : String) (ln₁ ln₂ : Int)
    (skv : SectionKeywordValues) (m₁ : OptionMap)
    (hk₁ : lineKeyword line₁ = some kw) (hk₂ : lineKeyword line₂ = some kw)
    (hskv : alookup m kw = some skv) (happ : skv.isAppendable = false)
    (hpush : servicePush m line₁ ln₁ = .ok m₁) :
    ∃ msg, servicePush m₁ line₂ ln₂ = .error (.exception msg) := by
  unfold lineKeyword at hk₁ hk₂
  unfold servicePush at hpush ⊢
  cases hw₁ : wsSplit line₁ with
  | nil => rw [hw₁] at hk₁; cases hk₁
  | cons kwc₁ rest₁ =>
    simp only [hw₁] at hk₁ hpush
    have hkw₁ : String.mk kwc₁ = kw := Option.some.inj hk₁
    rw [hkw₁, hskv] at hpush
    simp only [] at hpush
    cases hp : skv.push (.vstr (String.mk (joinSpace rest₁))) ln₁ with
    | error e => rw [hp] at hpush; cases hpush
    | ok skv₂ =>
      rw [hp] at hpush
      have hm₁ : m₁ = aupdate m kw skv₂ := (Except.ok.inj hpush).symm
      obtain ⟨hset₂, happ₂⟩ := push_ok_flags skv skv₂ _ _ hp
      cases hw₂ : wsSplit line₂ with
      | nil => rw [hw₂] at hk₂; cases hk₂
      | cons kwc₂ rest₂ =>
        simp only [hw₂] at hk₂ ⊢
        have hkw₂ : String.mk kwc₂ = kw := Option.some.inj hk₂
        rw [hkw₂, hm₁]
        simp only [alookup_aupdate_self]
        rw [push_err_of_set skv₂ _ _ (happ₂.trans happ) hset₂]
        exact ⟨_, rfl⟩

/-- The service option map after a first push of the user keyword. -/
def svcAfterFirstPush : OptionMap :=
  match servicePush serviceKeymap "user a" 2 with
  | .ok m => m
  | .error _ => []

/-- Witness for the amended C1 at the concrete service schema. -/
theorem c1_witness :
    ∃ msg, servicePush svcAfterFirstPush "user b" 3 = .error (.exception msg) :=
  c1_amended serviceKeymap "user a" "user b" "user" 2 3
    (mkSectionKeywordValues "user" (.str "root") false true .regex)
    svcAfterFirstPush (by decide) (by decide) (by decide) (by decide) (by decide)

/-! ### Claim C5: Match Result equality and hash -/

/-- A stand-alone submatch cell used by concrete match results. -/
def skvPlain (kw : String) (vals : List SectionValue) : SectionKeywordValues :=
  { keyword := kw, defaultType := .noneType, isAppendable := true, isSet := true,
    isDefaultPrintable := false, matcherKind := .regex, values := vals }

/-- A user submatch entry holding aaa. -/
def skvSubA : SectionKeywordValues :=
  { keyword := "user", defaultType := .strType, isAppendable := false, isSet := true,
    isDefaultPrintable := true, matcherKind := .regex, values := [⟨.vstr "aaa", 1⟩] }

/-- A user submatch entry holding bbb. -/
def skvSubB : SectionKeywordValues :=
  { skvSubA with values := [⟨.vstr "bbb", 2⟩] }

/-- A match result of section 7 with entry aaa under user. -/
def smEqA : SubMatches := ⟨7, [("user", skvSubA)]⟩

/-- A match result of section 7 with entry bbb under user. -/
def smEqB : SubMatches := ⟨7, [("user", skvSubB)]⟩

/-- Counterexample to claim C5 as stated: two match results of the same
section whose user entries differ compare equal, because the code checks
only keyword membership, never entry equality. -/
theorem c5_counterexample :
    SubMatches.beq smEqA smEqB = true ∧ ¬ subMatchesEqSpec smEqA smEqB := by
  constructor
  · decide
  · rintro ⟨-, h⟩
    obtain ⟨e₂, he, heq⟩ := h "user" skvSubB (by decide)
    have hA : alookup smEqA.submatches "user" = some skvSubA := by decide
    rw [hA] at he
    cases he
    exact absurd heq (by decide)

/-- Claim C5 amended: two match results compare equal iff they reference
the same section identity and every keyword of the other submatch map is
also a keyword of this one (keys only, entries are never compared); the
hash is the section identity, so equal match results hash equally. -/
theorem c5_amended (a b : SubMatches) :
    (SubMatches.beq a b = true ↔
      (a.sectionId = b.sectionId ∧
        ∀ k, k ∈ b.submatches.map Prod.fst → k ∈ a.submatches.map Prod.fst)) ∧
    (SubMatches.beq a b = true → SubMatches.hash a = SubMatches.hash b) := by
  constructor
  · unfold SubMatches.beq
    by_cases hid : a.sectionId = b.sectionId
    · simp [hid]
    · simp [hid]
  · intro h
    unfold SubMatches.beq at h
    by_cases hid : a.sectionId = b.sectionId
    · unfold SubMatches.hash
      rw [hid]
    · rw [if_pos hid] at h
      cases h

/-- Witness for the amended C5 at the concrete pair of match results. -/
theorem c5_witness :
    (SubMatches.beq smEqA smEqB = true ↔
      (smEqA.sectionId = smEqB.sectionId ∧
        ∀ k, k ∈ smEqB.submatches.map Prod.fst → k ∈ smEqA.submatches.map Prod.fst)) ∧
    (SubMatches.beq smEqA smEqB = true →
      SubMatches.hash smEqA = SubMatches.hash smEqB) :=
  c5_amended smEqA smEqB

/-! ### Claim C4: filter drops keywords outside the intersection -/

/-- A found match with socket and onrestart submatches. -/
def smFoundC4 : SubMatches :=
  ⟨3, [("socket", skvPlain "socket" [⟨.vstr "foo stream", 4⟩]),
       ("onrestart", skvPlain "onrestart" [⟨.vstr "restart media", 5⟩])]⟩

/-- An exception match sharing only the socket keyword. -/
def smExcC4 : SubMatches :=
  ⟨3, [("socket", skvPlain "socket" [⟨.vstr "foo stream", 9⟩])]⟩

/-- Counterexample to claim C4 as stated: the onrestart keyword is present
in found and absent from the exception, yet after the call the new
submatch map is empty, so its literal list is not preserved. -/
theorem c4_counterexample :
    SubMatches.filter smFoundC4 smExcC4 = .ok ([], true) ∧
    alookup smFoundC4.submatches "onrestart" =
      some (skvPlain "onrestart" [⟨.vstr "restart media", 5⟩]) :=
  ⟨by decide, by decide⟩

theorem filterKeyStep_keys (subs fltr : OptionMap)
    (left left₂ : List (String × List SectionValue)) (key : String)
    (h : filterKeyStep subs fltr left key = .ok left₂) :
    ∀ k, k ∈ left₂.map Prod.fst → k ∈ left.map Prod.fst ∨ k = key := by
  unfold filterKeyStep at h
  cases hf : alookup fltr key with
  | none => simp only [hf] at h; cases h
  | some fkv =>
    simp only [hf] at h
    cases hs : alookup subs key with
    | none => simp only [hs] at h; cases h
    | some skv =>
      simp only [hs] at h
      cases hr : removeFold skv.values skv.values fkv.values with
      | error e => simp only [hr] at h; cases h
      | ok sub =>
        simp only [hr] at h
        have h₂ := Except.ok.inj h
        intro k hk
        rw [← h₂] at hk
        by_cases hlen : 0 < sub.length
        · rw [if_pos hlen] at hk
          rw [List.map_append, List.mem_append] at hk
          cases hk with
          | inl hk => exact Or.inl hk
          | inr hk =>
            simp only [List.map_cons, List.map_nil, List.mem_singleton] at hk
            exact Or.inr hk
        · rw [if_neg hlen] at hk
          exact Or.inl hk

theorem filterFold_keys (subs fltr : OptionMap) (keys : List String)
    (left₀ L : List (String × List SectionValue))
    (h : efoldl (filterKeyStep subs fltr) left₀ keys = .ok L) :
    ∀ k, k ∈ L.map Prod.fst → k ∈ left₀.map Prod.fst ∨ k ∈ keys := by
  induction keys generalizing left₀ with
  | nil =>
    unfold efoldl at h
    have h₂ := Except.ok.inj h
    intro k hk
    rw [← h₂] at hk
    exact Or.inl hk
  | cons key rest ih =>
    unfold efoldl at h
    cases hstep : filterKeyStep subs fltr left₀ key with
    | error e => rw [hstep] at h; cases h
    | ok left₁ =>
      rw [hstep] at h
      intro k hk
      cases ih left₁ h k hk with
      | inl hk₂ =>
        cases filterKeyStep_keys subs fltr left₀ left₁ key hstep k hk₂ with
        | inl hk₃ => exact Or.inl hk₃
        | inr hk₃ => exact Or.inr (hk₃ ▸ List.mem_cons_self key rest)
      | inr hk₂ => exact Or.inr (List.mem_cons_of_mem key hk₂)

/-- Claim C4 amended: SubMatches.filter only processes keywords in the
intersection of the two submatch key sets, and the resulting submatch map
contains only such shared keywords; a keyword of found absent from the
exception is dropped from the result, not preserved. -/
theorem c4_amended (found exc : SubMatches)
    (left : List (String × List SectionValue)) (ret : Bool)
    (hok : SubMatches.filter found exc = .ok (left, ret)) :
    ∀ k, k ∈ left.map Prod.fst →
      k ∈ found.submatches.map Prod.fst ∧ k ∈ exc.submatches.map Prod.fst := by
  unfold SubMatches.filter at hok
  simp only [] at hok
  cases hf : efoldl (filterKeyStep found.submatches exc.submatches) []
      ((found.submatches.map Prod.fst).filter
        (fun k => (exc.submatches.map Prod.fst).any (fun k₂ => decide (k₂ = k)))) with
  | error e => rw [hf] at hok; cases hok
  | ok L =>
    rw [hf] at hok
    have h₂ := Except.ok.inj hok
    have hL : left = L := (congrArg Prod.fst h₂).symm
    intro k hk
    rw [hL] at hk
    cases filterFold_keys _ _ _ _ _ hf k hk with
    | inl hk₂ => cases hk₂
    | inr hk₂ =>
      rw [List.mem_filter] at hk₂
      refine ⟨hk₂.1, ?_⟩
      have h₃ := hk₂.2
      rw [List.any_eq_true] at h₃
      obtain ⟨k₂, hk₃, he⟩ := h₃
      rw [decide_eq_true_eq] at he
      exact he ▸ hk₃

/-- A found match whose socket remainder survives filtering. -/
def smFoundC4w : SubMatches :=
  ⟨4, [("socket", skvPlain "socket" [⟨.vstr "s1", 4⟩, ⟨.vstr "s2", 6⟩])]⟩

/-- An exception match removing one of the two socket values. -/
def smExcC4w : SubMatches :=
  ⟨4, [("socket", skvPlain "socket" [⟨.vstr "s1", 9⟩])]⟩

/-- Witness for the amended C4 at a concrete filter run. -/
theorem c4_witness :
    "socket" ∈ smFoundC4w.submatches.map Prod.fst ∧
    "socket" ∈ smExcC4w.submatches.map Prod.fst :=
  c4_amended smFoundC4w smExcC4w [("socket", [⟨.vstr "s2", 6⟩])] false
    (by decide) "socket" (by decide)

/-! ### Claim C9: duplicate submatch pushes abort Section.match -/

/-- Claim C9.  When the query supplies two patterns for a non-repeatable
keyword whose cell holds a single value accepted by both patterns, the
second push into the freshly reset non-appendable submatch cell raises the
duplicate-single-value exception, aborting the whole match. -/
theorem c9_duplicate_push_aborts (sec : PySection) (k : String)
    (skv : SectionKeywordValues) (v : SectionValue) (p₁ p₂ : String) (lz : Bool)
    (hmap : sec.optionMap = [(k, skv)])
    (hvals : skv.values = [v])
    (happ : skv.isAppendable = false)
    (h₁ : matcherAccepts skv.matcherKind p₁ lz v.str = true)
    (h₂ : matcherAccepts skv.matcherKind p₂ lz v.str = true) :
    ∃ msg, sec.match [(k, .many [p₁, p₂])] lz = .error (.exception msg) := by
  obtain ⟨m₁, hm₁, hs₁⟩ := (matcherAccepts_true_iff _ _ _ _).mp h₁
  obtain ⟨m₂, hm₂, hs₂⟩ := (matcherAccepts_true_iff _ _ _ _).mp h₂
  obtain ⟨cell₁, hpush₁, hset₁, happ₁, -⟩ :=
    push_ok_of_not_set skv.reset v.value v.lineno rfl
  have happc : cell₁.isAppendable = false := happ₁.trans happ
  have hstep₁ : cmpPairStep skv k lz v (0, []) p₁ = .ok (1, [(k, cell₁)]) := by
    unfold cmpPairStep
    simp only [hm₁, hs₁, if_true, alookup]
    rw [hpush₁]
    rfl
  have hstep₂ : cmpPairStep skv k lz v (1, [(k, cell₁)]) p₂ =
      .error (.exception ("Expected " ++ cell₁.keyword ++ " keyword to only appear once")) := by
    unfold cmpPairStep
    simp only [hm₂, hs₂, if_true, alookup, if_pos rfl]
    rw [push_err_of_set cell₁ _ _ happc hset₁]
  have hinner : cmpInner skv k lz [p₁, p₂] (0, []) =
      .error (.exception ("Expected " ++ cell₁.keyword ++ " keyword to only appear once")) := by
    unfold cmpInner
    rw [hvals]
    simp only [efoldl, hstep₁, hstep₂]
  refine ⟨"Expected " ++ cell₁.keyword ++ " keyword to only appear once", ?_⟩
  unfold PySection.match sectionCmp
  rw [hmap]
  unfold sectionCmpAux
  rw [show alookup [(k, skv)] k = some skv from by unfold alookup; rw [if_pos rfl]]
  simp only [hvals, List.isEmpty_cons, Bool.false_eq_true, if_false, SearchVal.norm, hinner]

/-- A user cell holding one pushed value root at line 5. -/
def skvUserC9 : SectionKeywordValues :=
  { mkSectionKeywordValues "user" (.str "root") false true .regex with
    values := [⟨.vstr "root", 5⟩], isSet := true }

/-- A service-like section whose option map holds the single user cell. -/
def secC9 : PySection := ⟨2, "service", "init.rc", 1, [("user", skvUserC9)]⟩

/-- Witness for C9 at a query with two patterns both matching root. -/
theorem c9_witness :
    ∃ msg, secC9.match [("user", .many [".*", "root"])] false =
      .error (.exception msg) :=
  c9_duplicate_push_aborts secC9 "user" skvUserC9 ⟨.vstr "root", 5⟩ ".*" "root" false
    (by decide) (by decide) (by decide) (by decide) (by decide)

/-! ### Claim C2: the coverage condition of Section.match -/

theorem cmpPairStep_found (skv : SectionKeywordValues) (key : String) (lz : Bool)
    (v : SectionValue) (st st₂ : Nat × OptionMap) (t : String)
    (h : cmpPairStep skv key lz v st t = .ok st₂) :
    st₂.1 = st.1 + (if matcherAccepts skv.matcherKind t lz v.str then 1 else 0) := by
  unfold cmpPairStep at h
  cases hm : mkMatcher skv.matcherKind t lz with
  | error e => simp only [hm] at h; cases h
  | ok m =>
    simp only [hm] at h
    cases hs : m.matchStr v.str with
    | error e => simp only [hs] at h; cases h
    | ok b =>
      simp only [hs] at h
      cases b with
      | false =>
        have hacc : matcherAccepts skv.matcherKind t lz v.str = false := by
          unfold matcherAccepts
          simp only [hm, hs]
        rw [hacc]
        simp only [Bool.false_eq_true, if_false] at h ⊢
        cases h
        simp
      | true =>
        have hacc : matcherAccepts skv.matcherKind t lz v.str = true :=
          (matcherAccepts_true_iff _ _ _ _).mpr ⟨m, hm, hs⟩
        rw [hacc, if_pos rfl]
        cases hp : (match alookup st.2 key with
          | some c => c
          | Option.none => skv.reset).push v.value v.lineno with
        | error e => simp only [hp] at h; cases h
        | ok cell₂ =>
          simp only [hp] at h
          cases h
          rfl

theorem efoldl_measure {σ α : Type} (f : σ → α → Except PyError σ) (μ : σ → Nat)
    (g : α → Nat)
    (hf : ∀ st x st₂, f st x = .ok st₂ → μ st₂ = μ st + g x) :
    ∀ (l : List α) (st st₂ : σ), efoldl f st l = .ok st₂ →
      μ st₂ = μ st + (l.map g).sum := by
  intro l
  induction l with
  | nil =>
    intro st st₂ h
    unfold efoldl at h
    cases h
    simp
  | cons x xs ih =>
    intro st st₂ h
    unfold efoldl at h
    cases hx : f st x with
    | error e => rw [hx] at h; cases h
    | ok st₁ =>
      rw [hx] at h
      have h₁ := hf st x st₁ hx
      have h₂ := ih st₁ st₂ h
      rw [h₂, h₁]
      simp only [List.map_cons, List.sum_cons]
      omega

theorem cmpInner_found (skv : SectionKeywordValues) (key : String) (lz : Bool)
    (patterns : List String) (subs : OptionMap) (found : Nat) (subs₂ : OptionMap)
    (h : cmpInner skv key lz patterns (0, subs) = .ok (found, subs₂)) :
    found = coverageCount skv patterns lz := by
  unfold cmpInner at h
  have h₂ := efoldl_measure
    (fun st₂ v => efoldl (fun st₃ t => cmpPairStep skv key lz v st₃ t) st₂ patterns)
    Prod.fst
    (fun v => (patterns.map (fun t =>
      if matcherAccepts skv.matcherKind t lz v.str then 1 else 0)).sum)
    (fun st v st₂ hf =>
      efoldl_measure _ Prod.fst _
        (fun st₃ t st₄ h₄ => cmpPairStep_found skv key lz v st₃ st₄ t h₄)
        patterns st st₂ hf)
    skv.values (0, subs) (found, subs₂) h
  simpa [coverageCount] using h₂

theorem covOKb_cons (optionMap : OptionMap) (kv : String × SearchVal)
    (rest : List (String × SearchVal)) (lz : Bool) :
    covOKb optionMap (kv :: rest) lz =
      ((match alookup optionMap kv.1 with
        | Option.none => false
        | some skv => !skv.values.isEmpty &&
            decide (kv.2.norm.length ≤ coverageCount skv kv.2.norm lz)) &&
        covOKb optionMap rest lz) := by
  unfold covOKb
  rw [List.all_cons]

theorem sectionCmpAux_iff (optionMap : OptionMap) (keyCmp : Int) (lz : Bool)
    (hk : 0 ≤ keyCmp) :
    ∀ (query : List (String × SearchVal)) (subs : OptionMap) (c : Int)
      (subs₂ : OptionMap),
      sectionCmpAux optionMap keyCmp lz query subs = .ok (c, subs₂) →
      (0 ≤ c ↔ covOKb optionMap query lz = true) := by
  intro query
  induction query with
  | nil =>
    intro subs c subs₂ h
    unfold sectionCmpAux at h
    have h₂ := Except.ok.inj h
    have hc : keyCmp = c := congrArg Prod.fst h₂
    constructor
    · intro _
      unfold covOKb
      simp
    · intro _
      rw [← hc]
      exact hk
  | cons kv rest ih =>
    intro subs c subs₂ h
    obtain ⟨key, sval⟩ := kv
    unfold sectionCmpAux at h
    cases hlook : alookup optionMap key with
    | none => simp only [hlook] at h; cases h
    | some skv =>
      simp only [hlook] at h
      by_cases hemp : skv.values.isEmpty = true
      · rw [if_pos hemp] at h
        have h₂ := Except.ok.inj h
        have hc : c = -1 := (congrArg Prod.fst h₂).symm
        rw [hc]
        constructor
        · intro h0
          exact absurd h0 (by norm_num)
        · intro hcov
          rw [covOKb_cons] at hcov
          simp only [hlook, Bool.and_eq_true] at hcov
          rw [hemp] at hcov
          simp at hcov
      · rw [if_neg hemp] at h
        cases hin : cmpInner skv key lz (SearchVal.norm sval) (0, subs) with
        | error e => simp only [hin] at h; cases h
        | ok fs =>
          obtain ⟨found, subs₃⟩ := fs
          simp only [hin] at h
          have hfound := cmpInner_found skv key lz (SearchVal.norm sval) subs found subs₃ hin
          by_cases hlt : found < (SearchVal.norm sval).length
          · rw [if_pos hlt] at h
            have h₂ := Except.ok.inj h
            have hc : c = -1 := (congrArg Prod.fst h₂).symm
            rw [hc]
            constructor
            · intro h0
              exact absurd h0 (by norm_num)
            · intro hcov
              rw [covOKb_cons] at hcov
              simp only [hlook, Bool.and_eq_true, decide_eq_true_eq] at hcov
              have hle := hcov.1.2
              rw [← hfound] at hle
              omega
          · rw [if_neg hlt] at h
            have hiff := ih subs₃ c subs₂ h
            rw [hiff, covOKb_cons]
            simp only [hlook, Bool.and_eq_true, decide_eq_true_eq]
            constructor
            · intro hrest
              refine ⟨⟨?_, ?_⟩, hrest⟩
              · rw [Bool.not_eq_true] at hemp
                rw [hemp]
                rfl
              · rw [← hfound]
                omega
            · intro hboth
              exact hboth.2

/-- A user cell holding one pushed value root, used by the C2 inputs. -/
def skvUserC2 : SectionKeywordValues :=
  { mkSectionKeywordValues "user" (.str "root") false true .regex with
    values := [⟨.vstr "root", 5⟩], isSet := true }

/-- A section whose option map holds the single user cell. -/
def secC2 : PySection := ⟨9, "service", "init.rc", 1, [("user", skvUserC2)]⟩

/-- A query whose two patterns both accept the stored user value. -/
def queryC2 : List (String × SearchVal) := [("user", .many [".*", "root"])]

/-- Counterexample to claim C2 as stated: the coverage condition holds at
this section and query (two patterns, both accepted by the single stored
value, coverage 2 of 2), yet Section.match does not succeed: it raises the
duplicate-single-value exception instead. -/
theorem c2_counterexample :
    covOKb secC2.optionMap queryC2 false = true ∧
    (∀ sm, secC2.match queryC2 false ≠ .ok (some sm)) := by
  constructor
  · decide
  · intro sm h
    rw [show secC2.match queryC2 false =
      .error (.exception "Expected user keyword to only appear once") from by decide] at h
    cases h

/-- Claim C2 amended: provided Section.match completes without raising,
it returns a match result iff, for every (keyword, patterns) pair of the
query, the value cell exists, holds at least one literal, and the coverage
count over (stored literal, requested pattern) pairs reaches the number of
requested patterns; a keyword with an empty cell fails the match. -/
theorem c2_match_iff_coverage (sec : PySection) (query : List (String × SearchVal))
    (lz : Bool) (h : exOk (sec.match query lz) = true) :
    (∃ sm, sec.match query lz = .ok (some sm)) ↔
      covOKb sec.optionMap query lz = true := by
  unfold PySection.match at h ⊢
  cases hc : sectionCmp sec.optionMap query lz with
  | error e =>
    rw [hc] at h
    cases h
  | ok cs =>
    obtain ⟨c, subs⟩ := cs
    have hiff := sectionCmpAux_iff sec.optionMap
      (if sec.optionMap.length = (query.map Prod.fst).eraseDups.length then 0 else 1)
      lz (by split <;> norm_num) query [] c subs hc
    simp only [hc]
    constructor
    · rintro ⟨sm, hsm⟩
      by_cases h0 : (0 : Int) ≤ c
      · exact hiff.mp h0
      · rw [if_neg h0] at hsm
        cases Except.ok.inj hsm
    · intro hcov
      refine ⟨⟨sec.oid, subs⟩, ?_⟩
      rw [if_pos (hiff.mpr hcov)]

/-- A query with a single covering pattern, for the C2 witness. -/
def queryC2w : List (String × SearchVal) := [("user", .single "root")]

/-- Witness for the amended C2 at a completing match run. -/
theorem c2_witness :
    (∃ sm, secC2.match queryC2w false = .ok (some sm)) ↔
      covOKb secC2.optionMap queryC2w false = true :=
  c2_match_iff_coverage secC2 queryC2w false (by decide)

/-! ### Claim C3: the removal arithmetic of SubMatches.filter -/

theorem pyEqValue_refl (a : Value) : pyEqValue a a = true := by
  cases a <;> simp [pyEqValue]

theorem pyEqValue_symm {a b : Value} (h : pyEqValue a b = true) :
    pyEqValue b a = true := by
  cases a <;> cases b <;> simp_all [pyEqValue]

theorem pyEqValue_trans {a b c : Value} (h₁ : pyEqValue a b = true)
    (h₂ : pyEqValue b c = true) : pyEqValue a c = true := by
  cases a <;> cases b <;> cases c <;> simp_all [pyEqValue]

theorem svEq_refl (a : SectionValue) : svEq a a = true := pyEqValue_refl a.value

theorem svEq_symm {a b : SectionValue} (h : svEq a b = true) : svEq b a = true :=
  pyEqValue_symm h

theorem svEq_trans {a b c : SectionValue} (h₁ : svEq a b = true)
    (h₂ : svEq b c = true) : svEq a c = true :=
  pyEqValue_trans h₁ h₂

theorem svEq_congr_right {v w : SectionValue} (h : svEq v w = true)
    (x : SectionValue) : svEq x v = svEq x w := by
  cases hxv : svEq x v with
  | true => exact (svEq_trans hxv h).symm
  | false =>
    cases hxw : svEq x w with
    | true => exact absurd (svEq_trans hxw (svEq_symm h)) (by rw [hxv]; simp)
    | false => rfl

theorem svEq_congr_left {v w : SectionValue} (h : svEq v w = true)
    (x : SectionValue) : svEq v x = svEq w x := by
  cases hvx : svEq v x with
  | true => exact (svEq_trans (svEq_symm h) hvx).symm
  | false =>
    cases hwx : svEq w x with
    | true => exact absurd (svEq_trans h hwx) (by rw [hvx]; simp)
    | false => rfl

theorem svCount_congr (l : List SectionValue) {v w : SectionValue}
    (h : svEq v w = true) : svCount l v = svCount l w := by
  unfold svCount
  induction l with
  | nil => rfl
  | cons x xs ih =>
    rw [List.countP_cons, List.countP_cons, ih, svEq_congr_right h x]

theorem svListContains_congr (S : List SectionValue) {v w : SectionValue}
    (h : svEq v w = true) : svListContains S v = svListContains S w := by
  unfold svListContains
  induction S with
  | nil => rfl
  | cons x xs ih =>
    rw [List.any_cons, List.any_cons, ih, svEq_congr_right h x]

theorem svListContains_iff_count (S : List SectionValue) (w : SectionValue) :
    svListContains S w = true ↔ 1 ≤ svCount S w := by
  unfold svListContains svCount
  rw [List.any_eq_true]
  rw [show (1 ≤ List.countP (fun x => svEq x w) S) ↔
    (0 < List.countP (fun x => svEq x w) S) from Iff.rfl]
  rw [List.countP_pos_iff]

theorem pyRemove_ok_counts {l l₂ : List SectionValue} {v : SectionValue}
    (h : pyRemove l v = .ok l₂) :
    (∀ w, svCount l₂ w = svCount l w - (if svEq v w = true then 1 else 0)) ∧
      1 ≤ svCount l v := by
  induction l generalizing l₂ with
  | nil => unfold pyRemove at h; cases h
  | cons x xs ih =>
    unfold pyRemove at h
    by_cases hx : svEq x v = true
    · rw [if_pos hx] at h
      cases h
      constructor
      · intro w
        unfold svCount
        simp only [List.countP_cons]
        rw [show svEq x w = svEq v w from svEq_congr_left hx w]
        split_ifs <;> omega
      · unfold svCount
        simp only [List.countP_cons]
        rw [if_pos hx]
        omega
    · rw [if_neg hx] at h
      cases hr : pyRemove xs v with
      | error e => rw [hr] at h; cases h
      | ok xs₂ =>
        rw [hr] at h
        cases h
        obtain ⟨hcnt, hge⟩ := ih hr
        constructor
        · intro w
          unfold svCount at hcnt hge ⊢
          simp only [List.countP_cons, hcnt w]
          by_cases hvw : svEq v w = true
          · have h₁ : 1 ≤ List.countP (fun x => svEq x w) xs := by
              have h₂ := svCount_congr xs hvw
              unfold svCount at h₂
              omega
            rw [if_pos hvw]
            split_ifs <;> omega
          · rw [if_neg hvw]
            split_ifs <;> omega
        · unfold svCount at hge ⊢
          simp only [List.countP_cons]
          omega

theorem removeFold_counts (S : List SectionValue) :
    ∀ (F sub R : List SectionValue), removeFold S sub F = .ok R → ∀ w,
      (svListContains S w = true →
        svCount F w ≤ svCount sub w ∧ svCount R w = svCount sub w - svCount F w) ∧
      (svListContains S w = false → svCount R w = svCount sub w) := by
  intro F
  induction F with
  | nil =>
    intro sub R h w
    unfold removeFold efoldl at h
    cases h
    constructor
    · intro _
      unfold svCount
      simp [List.countP_nil]
    · intro _
      rfl
  | cons v F₂ ih =>
    intro sub R h w
    unfold removeFold efoldl at h
    by_cases hv : svListContains S v = true
    · rw [if_pos hv] at h
      cases hrem : pyRemove sub v with
      | error e => rw [hrem] at h; cases h
      | ok sub₁ =>
        rw [hrem] at h
        obtain ⟨hcnt, hge⟩ := pyRemove_ok_counts hrem
        have hrest := ih sub₁ R h w
        by_cases hvw : svEq v w = true
        · have hSw : svListContains S w = true := by
            rw [← svListContains_congr S hvw]
            exact hv
          have hsubw : 1 ≤ svCount sub w := by
            have h₂ := svCount_congr sub hvw
            omega
          have hFw : svCount (v :: F₂) w = svCount F₂ w + 1 := by
            unfold svCount
            simp only [List.countP_cons]
            rw [if_pos hvw]
          have hsub₁ : svCount sub₁ w = svCount sub w - 1 := by
            rw [hcnt w, if_pos hvw]
          constructor
          · intro _
            obtain ⟨hle, heq⟩ := hrest.1 hSw
            constructor
            · omega
            · rw [heq, hsub₁, hFw]
              omega
          · intro hSw₂
            rw [hSw₂] at hSw
            cases hSw
        · have hFw : svCount (v :: F₂) w = svCount F₂ w := by
            unfold svCount
            simp only [List.countP_cons]
            rw [if_neg hvw]
            omega
          have hsub₁ : svCount sub₁ w = svCount sub w := by
            rw [hcnt w, if_neg hvw]
            omega
          constructor
          · intro hSw
            obtain ⟨hle, heq⟩ := hrest.1 hSw
            constructor
            · rw [hFw, ← hsub₁]
              exact hle
            · rw [hFw, heq, hsub₁]
          · intro hSw
            rw [← hsub₁]
            exact hrest.2 hSw
    · rw [if_neg hv] at h
      have hrest := ih sub R h w
      constructor
      · intro hSw
        have hvw : ¬ svEq v w = true := by
          intro hvw
          rw [svListContains_congr S hvw, hSw] at hv
          exact hv rfl
        have hFw : svCount (v :: F₂) w = svCount F₂ w := by
          unfold svCount
          simp only [List.countP_cons]
          rw [if_neg hvw]
          omega
        rw [hFw]
        exact hrest.1 hSw
      · exact hrest.2

theorem alookup_append {α : Type} (l₁ l₂ : List (String × α)) (k : String) :
    alookup (l₁ ++ l₂) k =
      match alookup l₁ k with
      | some v => some v
      | Option.none => alookup l₂ k := by
  induction l₁ with
  | nil => rfl
  | cons h t ih =>
    obtain ⟨k₂, v₂⟩ := h
    by_cases hk : k = k₂
    · simp [alookup, hk]
    · simp [alookup, hk, ih]

theorem alookup_some_mem {α : Type} {l : List (String × α)} {k : String} {v : α}
    (h : alookup l k = some v) : k ∈ l.map Prod.fst := by
  induction l with
  | nil => cases h
  | cons x t ih =>
    obtain ⟨k₂, v₂⟩ := x
    unfold alookup at h
    by_cases hk : k = k₂
    · rw [hk]
      exact List.mem_cons_self k₂ _
    · rw [if_neg hk] at h
      exact List.mem_cons_of_mem _ (ih h)

theorem filterKeyStep_ok (subs fltr : OptionMap)
    (left left₂ : List (String × List SectionValue)) (key : String)
    (h : filterKeyStep subs fltr left key = .ok left₂) :
    ∃ fkv skv R, alookup fltr key = some fkv ∧ alookup subs key = some skv ∧
      removeFold skv.values skv.values fkv.values = .ok R ∧
      left₂ = (if 0 < R.length then left ++ [(key, R)] else left) := by
  unfold filterKeyStep at h
  cases hf : alookup fltr key with
  | none => simp only [hf] at h; cases h
  | some fkv =>
    simp only [hf] at h
    cases hs : alookup subs key with
    | none => simp only [hs] at h; cases h
    | some skv =>
      simp only [hs] at h
      cases hr : removeFold skv.values skv.values fkv.values with
      | error e => simp only [hr] at h; cases h
      | ok R =>
        simp only [hr] at h
        exact ⟨fkv, skv, R, rfl, rfl, hr, (Except.ok.inj h).symm⟩

theorem filterFold_preserves (subs fltr : OptionMap) :
    ∀ (keys : List String) (left₀ L : List (String × List SectionValue)),
      efoldl (filterKeyStep subs fltr) left₀ keys = .ok L →
      ∀ k, k ∉ keys → alookup L k = alookup left₀ k := by
  intro keys
  induction keys with
  | nil =>
    intro left₀ L h k _
    unfold efoldl at h
    cases h
    rfl
  | cons key rest ih =>
    intro left₀ L h k hk
    unfold efoldl at h
    cases hstep : filterKeyStep subs fltr left₀ key with
    | error e => rw [hstep] at h; cases h
    | ok left₁ =>
      rw [hstep] at h
      have hk₂ : k ∉ rest := fun hm => hk (List.mem_cons_of_mem _ hm)
      have hkey : k ≠ key := fun he => hk (he ▸ List.mem_cons_self key rest)
      rw [ih left₁ L h k hk₂]
      obtain ⟨fkv, skv, R, -, -, -, hshape⟩ :=
        filterKeyStep_ok subs fltr left₀ left₁ key hstep
      rw [hshape]
      by_cases hlen : 0 < R.length
      · rw [if_pos hlen, alookup_append]
        cases hl : alookup left₀ k with
        | none => simp [alookup, hkey]
        | some v => rfl
      · rw [if_neg hlen]

theorem filterFold_lookup (subs fltr : OptionMap) :
    ∀ (keys : List String) (left₀ L : List (String × List SectionValue)),
      keys.Nodup →
      (∀ k, k ∈ keys → alookup left₀ k = Option.none) →
      efoldl (filterKeyStep subs fltr) left₀ keys = .ok L →
      ∀ k, k ∈ keys →
        ∃ fkv skv R, alookup fltr k = some fkv ∧ alookup subs k = some skv ∧
          removeFold skv.values skv.values fkv.values = .ok R ∧
          alookup L k = (if 0 < R.length then some R else Option.none) := by
  intro keys
  induction keys with
  | nil =>
    intro left₀ L _ _ _ k hk
    cases hk
  | cons key rest ih =>
    intro left₀ L hnd hnone h k hk
    unfold efoldl at h
    cases hstep : filterKeyStep subs fltr left₀ key with
    | error e => rw [hstep] at h; cases h
    | ok left₁ =>
      rw [hstep] at h
      obtain ⟨fkv, skv, R, hf, hs, hr, hshape⟩ :=
        filterKeyStep_ok subs fltr left₀ left₁ key hstep
      have hkeyrest : key ∉ rest := (List.nodup_cons.mp hnd).1
      have hndrest : rest.Nodup := (List.nodup_cons.mp hnd).2
      have hnone₁ : ∀ k₂, k₂ ∈ rest → alookup left₁ k₂ = Option.none := by
        intro k₂ hk₂
        have hne : k₂ ≠ key := fun he => hkeyrest (he ▸ hk₂)
        have h₀ := hnone k₂ (List.mem_cons_of_mem _ hk₂)
        rw [hshape]
        by_cases hlen : 0 < R.length
        · rw [if_pos hlen, alookup_append, h₀]
          simp [alookup, hne]
        · rw [if_neg hlen]
          exact h₀
      rcases List.mem_cons.mp hk with hke | hkr
      · refine ⟨fkv, skv, R, by rw [hke]; exact hf, by rw [hke]; exact hs, hr, ?_⟩
        have hpres := filterFold_preserves subs fltr rest left₁ L h key hkeyrest
        rw [hke, hpres, hshape]
        by_cases hlen : 0 < R.length
        · rw [if_pos hlen, if_pos hlen, alookup_append,
            hnone key (List.mem_cons_self key rest)]
          simp [alookup]
        · rw [if_neg hlen, if_neg hlen]
          exact hnone key (List.mem_cons_self key rest)
      · exact ih left₁ L hndrest hnone₁ h k hkr

theorem svListContains_of_mem {S : List SectionValue} {x : SectionValue}
    (hx : x ∈ S) : svListContains S x = true := by
  unfold svListContains
  rw [List.any_eq_true]
  exact ⟨x, hx, svEq_refl x⟩

theorem exists_mem_of_svListContains {S : List SectionValue} {y : SectionValue}
    (h : svListContains S y = true) : ∃ x, x ∈ S ∧ svEq x y = true := by
  unfold svListContains at h
  rw [List.any_eq_true] at h
  exact h

theorem svCount_zero_of_not_contains {S : List SectionValue} {w : SectionValue}
    (h : svListContains S w = false) : svCount S w = 0 := by
  cases hc : svCount S w with
  | zero => rfl
  | succ n =>
    exact absurd ((svListContains_iff_count S w).mpr (by omega))
      (by rw [h]; simp)

/-- A found match with one socket value. -/
def smFoundC3 : SubMatches :=
  ⟨5, [("socket", skvPlain "socket" [⟨.vstr "x", 1⟩])]⟩

/-- An exception match listing the same socket value twice. -/
def smExcC3 : SubMatches :=
  ⟨5, [("socket", skvPlain "socket" [⟨.vstr "x", 7⟩, ⟨.vstr "x", 8⟩])]⟩

/-- Counterexample to claim C3 as stated: when the exception lists a value
more often than found holds it, the call does not return at all; the
second removal raises ValueError, so no true-iff-empty return happens. -/
theorem c3_counterexample :
    SubMatches.filter smFoundC3 smExcC3 =
      .error (.valueError "list.remove(x): x not in list") ∧
    (∀ r, SubMatches.filter smFoundC3 smExcC3 ≠ .ok r) := by
  refine ⟨by decide, ?_⟩
  intro r h
  rw [show SubMatches.filter smFoundC3 smExcC3 =
    .error (.valueError "list.remove(x): x not in list") from by decide] at h
  cases h

/-- Claim C3 amended: when SubMatches.filter returns (which requires every
shared keyword to list each value at most as often as found holds it),
each exception value removes exactly one equal-valued occurrence when its
value occurs in found's original list for that keyword, a shared keyword
is dropped from the result iff its remainder is empty, found's submatches
are replaced by the result, and the call returns true iff the result is
completely empty. -/
theorem c3_filter_remainder (found exc : SubMatches)
    (hnd : (found.submatches.map Prod.fst).Nodup)
    (left : List (String × List SectionValue)) (ret : Bool)
    (hok : SubMatches.filter found exc = .ok (left, ret)) :
    ret = left.isEmpty ∧
    ∀ key skv fkv, alookup found.submatches key = some skv →
      alookup exc.submatches key = some fkv →
      ((∀ w, svListContains skv.values w = true →
          svCount fkv.values w ≤ svCount skv.values w) ∧
       (∀ R w, alookup left key = some R →
          svCount R w = (if svListContains skv.values w = true
            then svCount skv.values w - svCount fkv.values w else 0)) ∧
       (alookup left key = Option.none ↔
          skv.values.all (fun x =>
            decide (svCount skv.values x ≤ svCount fkv.values x)) = true)) := by
  unfold SubMatches.filter at hok
  simp only [] at hok
  cases hf : efoldl (filterKeyStep found.submatches exc.submatches) []
      ((found.submatches.map Prod.fst).filter
        (fun k => (exc.submatches.map Prod.fst).any (fun k₂ => decide (k₂ = k)))) with
  | error e => rw [hf] at hok; cases hok
  | ok L =>
    rw [hf] at hok
    have h₂ := Except.ok.inj hok
    have hL : left = L := (congrArg Prod.fst h₂).symm
    have hret : ret = L.isEmpty := (congrArg Prod.snd h₂).symm
    refine ⟨by rw [hret, hL], ?_⟩
    intro key skv fkv hskv hfkv
    have hkmem : key ∈ (found.submatches.map Prod.fst).filter
        (fun k => (exc.submatches.map Prod.fst).any (fun k₂ => decide (k₂ = k))) := by
      rw [List.mem_filter]
      refine ⟨alookup_some_mem hskv, ?_⟩
      rw [List.any_eq_true]
      exact ⟨key, alookup_some_mem hfkv, by simp⟩
    have hndk : ((found.submatches.map Prod.fst).filter
        (fun k => (exc.submatches.map Prod.fst).any (fun k₂ => decide (k₂ = k)))).Nodup :=
      hnd.filter _
    obtain ⟨fkv₂, skv₂, R, hf₂, hs₂, hr, hlookL⟩ :=
      filterFold_lookup found.submatches exc.submatches _ [] L hndk
        (fun k _ => rfl) hf key hkmem
    rw [hskv] at hs₂
    cases hs₂
    rw [hfkv] at hf₂
    cases hf₂
    have hcounts := removeFold_counts skv.values fkv.values skv.values R hr
    refine ⟨fun w hw => ((hcounts w).1 hw).1, ?_, ?_⟩
    · intro R₂ w hlook
      rw [hL, hlookL] at hlook
      by_cases hlen : 0 < R.length
      · rw [if_pos hlen] at hlook
        cases hlook
        by_cases hcw : svListContains skv.values w = true
        · rw [if_pos hcw]
          exact ((hcounts w).1 hcw).2
        · rw [if_neg hcw]
          rw [Bool.not_eq_true] at hcw
          rw [(hcounts w).2 hcw]
          exact svCount_zero_of_not_contains hcw
      · rw [if_neg hlen] at hlook
        cases hlook
    · rw [hL, hlookL]
      by_cases hlen : 0 < R.length
      · rw [if_pos hlen]
        constructor
        · intro habs
          cases habs
        · intro hall
          exfalso
          cases hR : R with
          | nil => rw [hR] at hlen; simp at hlen
          | cons y R₂ =>
            have hRy : 1 ≤ svCount R y := by
              rw [hR]
              unfold svCount
              simp only [List.countP_cons]
              rw [if_pos (svEq_refl y)]
              omega
            cases hcy : svListContains skv.values y with
            | false =>
              rw [(hcounts y).2 hcy, svCount_zero_of_not_contains hcy] at hRy
              omega
            | true =>
              obtain ⟨hle, heq⟩ := (hcounts y).1 hcy
              obtain ⟨x, hx, hxy⟩ := exists_mem_of_svListContains hcy
              rw [List.all_eq_true] at hall
              have hxall := hall x hx
              rw [decide_eq_true_eq] at hxall
              rw [svCount_congr skv.values hxy, svCount_congr fkv.values hxy] at hxall
              omega
      · rw [if_neg hlen]
        have hRnil : R = [] := by
          cases R with
          | nil => rfl
          | cons y R₂ => simp at hlen
        constructor
        · intro _
          rw [List.all_eq_true]
          intro x hx
          rw [decide_eq_true_eq]
          have hcx := svListContains_of_mem hx
          obtain ⟨hle, heq⟩ := (hcounts x).1 hcx
          rw [hRnil] at heq
          have h0 : svCount ([] : List SectionValue) x = 0 := rfl
          have h1 : 1 ≤ svCount skv.values x :=
            (svListContains_iff_count _ _).mp hcx
          omega
        · intro _
          rfl

/-- A found match whose socket list loses one of two values. -/
def smFoundC3w : SubMatches :=
  ⟨6, [("socket", skvPlain "socket" [⟨.vstr "s1", 4⟩, ⟨.vstr "s2", 6⟩])]⟩

/-- The exception match removing one socket value. -/
def smExcC3w : SubMatches :=
  ⟨6, [("socket", skvPlain "socket" [⟨.vstr "s1", 9⟩])]⟩

/-- Witness for the amended C3 at a concrete filter run. -/
theorem c3_witness :
    false = ([("socket", [(⟨.vstr "s2", 6⟩ : SectionValue)])] :
      List (String × List SectionValue)).isEmpty ∧
    ∀ key skv fkv, alookup smFoundC3w.submatches key = some skv →
      alookup smExcC3w.submatches key = some fkv →
      ((∀ w, svListContains skv.values w = true →
          svCount fkv.values w ≤ svCount skv.values w) ∧
       (∀ R w, alookup ([("socket", [(⟨.vstr "s2", 6⟩ : SectionValue)])] :
            List (String × List SectionValue)) key = some R →
          svCount R w = (if svListContains skv.values w = true
            then svCount skv.values w - svCount fkv.values w else 0)) ∧
       (alookup ([("socket", [(⟨.vstr "s2", 6⟩ : SectionValue)])] :
            List (String × List SectionValue)) key = Option.none ↔
          skv.values.all (fun x =>
            decide (svCount skv.values x ≤ svCount fkv.values x)) = true)) :=
  c3_filter_remainder smFoundC3w smExcC3w (by decide)
    [("socket", [⟨.vstr "s2", 6⟩])] false (by decide)

/-! ### Claim C8: RegexMatcher semantics -/

theorem RMem_emptyset_elim {s : List Char} (h : RMem s .emptyset) : False := by
  cases h

theorem RMem_eps_elim {s : List Char} (h : RMem s .eps) : s = [] := by
  cases h
  rfl

theorem RMem_chr_elim {s : List Char} {c : Char} (h : RMem s (.chr c)) :
    s = [c] := by
  cases h
  rfl

theorem RMem_dot_elim {s : List Char} (h : RMem s .dot) : ∃ c, s = [c] := by
  cases h
  exact ⟨_, rfl⟩

theorem RMem_cat_elim {s : List Char} {r₁ r₂ : Regex} (h : RMem s (.cat r₁ r₂)) :
    ∃ s₁ s₂, s = s₁ ++ s₂ ∧ RMem s₁ r₁ ∧ RMem s₂ r₂ := by
  cases h with
  | catM h₁ h₂ => exact ⟨_, _, rfl, h₁, h₂⟩

theorem RMem_alt_elim {s : List Char} {r₁ r₂ : Regex} (h : RMem s (.alt r₁ r₂)) :
    RMem s r₁ ∨ RMem s r₂ := by
  cases h with
  | altL h₁ => exact Or.inl h₁
  | altR h₂ => exact Or.inr h₂

theorem RMem_star_elim {s : List Char} {r : Regex} (h : RMem s (.star r)) :
    s = [] ∨ ∃ s₁ s₂, s = s₁ ++ s₂ ∧ s₁ ≠ [] ∧ RMem s₁ r ∧ RMem s₂ (.star r) := by
  cases h with
  | starNil => exact Or.inl rfl
  | starCons hne h₁ h₂ => exact Or.inr ⟨_, _, rfl, hne, h₁, h₂⟩

theorem nullable_iff (r : Regex) : r.nullable = true ↔ RMem [] r := by
  induction r with
  | emptyset =>
    constructor
    · intro h
      exact Bool.noConfusion h
    · intro h
      exact absurd h RMem_emptyset_elim
  | eps =>
    constructor
    · intro _
      exact RMem.epsM
    · intro _
      rfl
  | chr c =>
    constructor
    · intro h
      exact Bool.noConfusion h
    · intro h
      cases RMem_chr_elim h
  | dot =>
    constructor
    · intro h
      exact Bool.noConfusion h
    · intro h
      obtain ⟨c, hc⟩ := RMem_dot_elim h
      cases hc
  | cat r₁ r₂ ih₁ ih₂ =>
    constructor
    · intro h
      rw [show (Regex.cat r₁ r₂).nullable = (r₁.nullable && r₂.nullable) from rfl,
        Bool.and_eq_true] at h
      exact RMem.catM (ih₁.mp h.1) (ih₂.mp h.2)
    · intro h
      obtain ⟨s₁, s₂, heq, hm₁, hm₂⟩ := RMem_cat_elim h
      obtain ⟨h₁, h₂⟩ := List.append_eq_nil.mp heq.symm
      rw [show (Regex.cat r₁ r₂).nullable = (r₁.nullable && r₂.nullable) from rfl,
        Bool.and_eq_true]
      exact ⟨ih₁.mpr (h₁ ▸ hm₁), ih₂.mpr (h₂ ▸ hm₂)⟩
  | alt r₁ r₂ ih₁ ih₂ =>
    constructor
    · intro h
      rw [show (Regex.alt r₁ r₂).nullable = (r₁.nullable || r₂.nullable) from rfl,
        Bool.or_eq_true] at h
      cases h with
      | inl h₁ => exact RMem.altL (ih₁.mp h₁)
      | inr h₂ => exact RMem.altR (ih₂.mp h₂)
    · intro h
      rw [show (Regex.alt r₁ r₂).nullable = (r₁.nullable || r₂.nullable) from rfl,
        Bool.or_eq_true]
      cases RMem_alt_elim h with
      | inl h₁ => exact Or.inl (ih₁.mpr h₁)
      | inr h₂ => exact Or.inr (ih₂.mpr h₂)
  | star r ih =>
    constructor
    · intro _
      exact RMem.starNil
    · intro _
      rfl

theorem deriv_iff (r : Regex) : ∀ (c : Char) (s : List Char),
    RMem s (r.deriv c) ↔ RMem (c :: s) r := by
  induction r with
  | emptyset =>
    intro c s
    constructor
    · intro h
      exact absurd h RMem_emptyset_elim
    · intro h
      exact absurd h RMem_emptyset_elim
  | eps =>
    intro c s
    constructor
    · intro h
      exact absurd h RMem_emptyset_elim
    · intro h
      cases RMem_eps_elim h
  | chr c₂ =>
    intro c s
    constructor
    · intro h
      by_cases hc : c = c₂
      · rw [show (Regex.chr c₂).deriv c =
          (if c = c₂ then Regex.eps else Regex.emptyset) from rfl, if_pos hc] at h
        rw [RMem_eps_elim h, hc]
        exact RMem.chrM c₂
      · rw [show (Regex.chr c₂).deriv c =
          (if c = c₂ then Regex.eps else Regex.emptyset) from rfl, if_neg hc] at h
        exact absurd h RMem_emptyset_elim
    · intro h
      have h₂ := RMem_chr_elim h
      injection h₂ with hc hs
      rw [show (Regex.chr c₂).deriv c =
        (if c = c₂ then Regex.eps else Regex.emptyset) from rfl, if_pos hc, hs]
      exact RMem.epsM
  | dot =>
    intro c s
    constructor
    · intro h
      rw [RMem_eps_elim h]
      exact RMem.dotM c
    · intro h
      obtain ⟨c₂, hc⟩ := RMem_dot_elim h
      injection hc with hc₂ hs
      rw [hs]
      exact RMem.epsM
  | cat r₁ r₂ ih₁ ih₂ =>
    intro c s
    by_cases hn : r₁.nullable = true
    · rw [show (Regex.cat r₁ r₂).deriv c =
        (if r₁.nullable then .alt (.cat (r₁.deriv c) r₂) (r₂.deriv c)
          else .cat (r₁.deriv c) r₂) from rfl, if_pos hn]
      constructor
      · intro h
        cases RMem_alt_elim h with
        | inl h₁ =>
          obtain ⟨s₁, s₂, heq, hm₁, hm₂⟩ := RMem_cat_elim h₁
          rw [heq]
          exact RMem.catM ((ih₁ c s₁).mp hm₁) hm₂
        | inr h₂ =>
          exact RMem.catM ((nullable_iff r₁).mp hn) ((ih₂ c s).mp h₂)
      · intro h
        obtain ⟨s₁, s₂, heq, hm₁, hm₂⟩ := RMem_cat_elim h
        cases s₁ with
        | nil =>
          rw [List.nil_append] at heq
          exact RMem.altR ((ih₂ c s).mpr (heq ▸ hm₂))
        | cons a t =>
          rw [List.cons_append] at heq
          injection heq with hac hs
          rw [hs]
          exact RMem.altL (RMem.catM ((ih₁ c t).mpr (hac ▸ hm₁)) hm₂)
    · rw [show (Regex.cat r₁ r₂).deriv c =
        (if r₁.nullable then .alt (.cat (r₁.deriv c) r₂) (r₂.deriv c)
          else .cat (r₁.deriv c) r₂) from rfl, if_neg hn]
      constructor
      · intro h
        obtain ⟨s₁, s₂, heq, hm₁, hm₂⟩ := RMem_cat_elim h
        rw [heq]
        exact RMem.catM ((ih₁ c s₁).mp hm₁) hm₂
      · intro h
        obtain ⟨s₁, s₂, heq, hm₁, hm₂⟩ := RMem_cat_elim h
        cases s₁ with
        | nil =>
          exact absurd ((nullable_iff r₁).mpr hm₁) hn
        | cons a t =>
          rw [List.cons_append] at heq
          injection heq with hac hs
          rw [hs]
          exact RMem.catM ((ih₁ c t).mpr (hac ▸ hm₁)) hm₂
  | alt r₁ r₂ ih₁ ih₂ =>
    intro c s
    constructor
    · intro h
      cases RMem_alt_elim h with
      | inl h₁ => exact RMem.altL ((ih₁ c s).mp h₁)
      | inr h₂ => exact RMem.altR ((ih₂ c s).mp h₂)
    · intro h
      cases RMem_alt_elim h with
      | inl h₁ => exact RMem.altL ((ih₁ c s).mpr h₁)
      | inr h₂ => exact RMem.altR ((ih₂ c s).mpr h₂)
  | star r ih =>
    intro c s
    constructor
    · intro h
      obtain ⟨s₁, s₂, heq, hm₁, hm₂⟩ := RMem_cat_elim h
      rw [heq]
      exact RMem.starCons (by simp) ((ih c s₁).mp hm₁) hm₂
    · intro h
      cases RMem_star_elim h with
      | inl hnil => cases hnil
      | inr hex =>
        obtain ⟨s₁, s₂, heq, hne, hm₁, hm₂⟩ := hex
        cases s₁ with
        | nil => exact absurd rfl hne
        | cons a t =>
          rw [List.cons_append] at heq
          injection heq with hac hs
          rw [hs]
          exact RMem.catM ((ih c t).mpr (hac ▸ hm₁)) hm₂

theorem accepts_iff : ∀ (s : List Char) (r : Regex),
    r.accepts s = true ↔ RMem s r := by
  intro s
  induction s with
  | nil =>
    intro r
    exact nullable_iff r
  | cons c t ih =>
    intro r
    rw [show Regex.accepts r (c :: t) = (r.deriv c).accepts t from rfl, ih (r.deriv c)]
    exact deriv_iff r c t

theorem dotstar_mem : ∀ (s : List Char), RMem s (.star .dot) := by
  intro s
  induction s with
  | nil => exact RMem.starNil
  | cons c t ih => exact RMem.starCons (by simp) (RMem.dotM c) ih

theorem RMem_cat_eps (u : List Char) (r : Regex) :
    RMem u (.cat r .eps) ↔ RMem u r := by
  constructor
  · intro h
    obtain ⟨s₁, s₂, heq, h₁, h₂⟩ := RMem_cat_elim h
    rw [RMem_eps_elim h₂] at heq
    rw [heq, List.append_nil]
    exact h₁
  · intro h
    have h₂ := RMem.catM h RMem.epsM
    rwa [List.append_nil] at h₂

theorem RMem_foldr_append (B A : List Regex) :
    ∀ s, RMem s ((A ++ B).foldr .cat .eps) ↔
      ∃ u v, s = u ++ v ∧ RMem u (A.foldr .cat .eps) ∧
        RMem v (B.foldr .cat .eps) := by
  induction A with
  | nil =>
    intro s
    constructor
    · intro h
      exact ⟨[], s, rfl, RMem.epsM, h⟩
    · rintro ⟨u, v, heq, hu, hv⟩
      rw [RMem_eps_elim hu, List.nil_append] at heq
      rw [List.nil_append, heq]
      exact hv
  | cons a A₂ ih =>
    intro s
    rw [List.cons_append, List.foldr_cons]
    constructor
    · intro h
      obtain ⟨s₁, s₂, heq, hm₁, hm₂⟩ := RMem_cat_elim h
      obtain ⟨u, v, heq₂, hu, hv⟩ := (ih s₂).mp hm₂
      refine ⟨s₁ ++ u, v, ?_, RMem.catM hm₁ hu, hv⟩
      rw [heq, heq₂, List.append_assoc]
    · rintro ⟨u, v, heq, hu, hv⟩
      obtain ⟨s₁, s₂, hequ, hm₁, hm₂⟩ := RMem_cat_elim hu
      have h₂ : RMem (s₂ ++ v) ((A₂ ++ B).foldr .cat .eps) :=
        (ih (s₂ ++ v)).mpr ⟨s₂, v, rfl, hm₂, hv⟩
      have h₃ := RMem.catM hm₁ h₂
      rw [heq, hequ, List.append_assoc]
      exact h₃

theorem reParseAux_nil (acc : List Regex) : reParseAux [] acc = some acc := rfl

theorem reParseAux_star_nil (rest : List Char) :
    reParseAux ('*' :: rest) [] = none := rfl

theorem reParseAux_star_cons (rest : List Char) (a : Regex) (acc : List Regex) :
    reParseAux ('*' :: rest) (a :: acc) =
      (if a.isStar then none else reParseAux rest (.star a :: acc)) := rfl

theorem reParseAux_dot (rest : List Char) (acc : List Regex) :
    reParseAux ('.' :: rest) acc = reParseAux rest (.dot :: acc) := rfl

theorem reParseAux_other (c : Char) (rest : List Char) (acc : List Regex)
    (h₁ : ¬ c = '*') (h₂ : ¬ c = '.') :
    reParseAux (c :: rest) acc =
      (if plainChar c then reParseAux rest (.chr c :: acc) else none) := by
  show (if c = '*' then
      match acc with
      | [] => none
      | a :: acc₂ => if a.isStar then none else reParseAux rest (.star a :: acc₂)
    else if c = '.' then reParseAux rest (.dot :: acc)
    else if plainChar c then reParseAux rest (.chr c :: acc) else none) =
    (if plainChar c then reParseAux rest (.chr c :: acc) else none)
  rw [if_neg h₁, if_neg h₂]

theorem reParseAux_append : ∀ (xs ys : List Char) (acc out : List Regex),
    reParseAux xs acc = some out →
    reParseAux (xs ++ ys) acc = reParseAux ys out := by
  intro xs
  induction xs with
  | nil =>
    intro ys acc out h
    rw [reParseAux_nil] at h
    cases h
    rw [List.nil_append]
  | cons c rest ih =>
    intro ys acc out h
    rw [List.cons_append]
    by_cases hstar : c = '*'
    · subst hstar
      cases acc with
      | nil => rw [reParseAux_star_nil] at h; cases h
      | cons a acc₂ =>
        rw [reParseAux_star_cons] at h ⊢
        by_cases hs : a.isStar = true
        · rw [if_pos hs] at h; cases h
        · rw [if_neg hs] at h ⊢
          exact ih ys _ out h
    · by_cases hdot : c = '.'
      · subst hdot
        rw [reParseAux_dot] at h ⊢
        exact ih ys _ out h
      · rw [reParseAux_other c rest _ hstar hdot] at h
        rw [reParseAux_other c (rest ++ ys) _ hstar hdot]
        by_cases hp : plainChar c = true
        · rw [if_pos hp] at h ⊢
          exact ih ys _ out h
        · rw [if_neg hp] at h; cases h

theorem reParseAux_stack : ∀ (xs : List Char) (acc₁ acc₂ out : List Regex),
    reParseAux xs acc₁ = some out →
    reParseAux xs (acc₁ ++ acc₂) = some (out ++ acc₂) := by
  intro xs
  induction xs with
  | nil =>
    intro acc₁ acc₂ out h
    rw [reParseAux_nil] at h
    cases h
    rw [reParseAux_nil]
  | cons c rest ih =>
    intro acc₁ acc₂ out h
    by_cases hstar : c = '*'
    · subst hstar
      cases acc₁ with
      | nil => rw [reParseAux_star_nil] at h; cases h
      | cons a t =>
        rw [reParseAux_star_cons] at h
        rw [List.cons_append, reParseAux_star_cons]
        by_cases hs : a.isStar = true
        · rw [if_pos hs] at h; cases h
        · rw [if_neg hs] at h ⊢
          have h₂ := ih (.star a :: t) acc₂ out h
          rw [List.cons_append] at h₂
          exact h₂
    · by_cases hdot : c = '.'
      · subst hdot
        rw [reParseAux_dot] at h
        rw [reParseAux_dot]
        have h₂ := ih (.dot :: acc₁) acc₂ out h
        rw [List.cons_append] at h₂
        exact h₂
      · rw [reParseAux_other c rest _ hstar hdot] at h
        rw [reParseAux_other c rest _ hstar hdot]
        by_cases hp : plainChar c = true
        · rw [if_pos hp] at h
          rw [if_pos hp]
          have h₂ := ih (.chr c :: acc₁) acc₂ out h
          rw [List.cons_append] at h₂
          exact h₂
        · rw [if_neg hp] at h; cases h

theorem strData_append (s t : String) : (s ++ t).data = s.data ++ t.data := by
  cases s
  cases t
  rfl

theorem wrap_data (p : String) :
    (".*" ++ p ++ ".*").data = '.' :: '*' :: (p.data ++ ['.', '*']) := by
  rw [strData_append, strData_append]
  rw [show (".*" : String).data = ['.', '*'] from rfl]
  rw [List.append_assoc]
  rfl

theorem reParse_wrap (p : String) (stack : List Regex)
    (h : reParseAux p.data [] = some stack) :
    reParseAux (".*" ++ p ++ ".*").data [] =
      some (.star .dot :: (stack ++ [.star .dot])) := by
  rw [wrap_data, reParseAux_dot, reParseAux_star_cons, if_neg (by decide)]
  have h₂ := reParseAux_stack p.data [] [.star .dot] stack h
  rw [List.nil_append] at h₂
  rw [reParseAux_append p.data ['.', '*'] [.star .dot] (stack ++ [.star .dot]) h₂]
  rw [reParseAux_dot, reParseAux_star_cons, if_neg (by decide)]
  rw [reParseAux_nil]

theorem assemble_wrap (stack : List Regex) (s : List Char) :
    RMem s (assemble (.star .dot :: (stack ++ [.star .dot]))) ↔
      ∃ pre mid post, s = pre ++ mid ++ post ∧ RMem mid (assemble stack) := by
  unfold assemble
  rw [List.reverse_cons, List.reverse_append, List.reverse_singleton]
  rw [RMem_foldr_append]
  constructor
  · rintro ⟨u, v, heq, hu, hv⟩
    rw [RMem_foldr_append] at hu
    obtain ⟨u₁, u₂, hequ, hu₁, hu₂⟩ := hu
    exact ⟨u₁, u₂, v, by rw [heq, hequ], hu₂⟩
  · rintro ⟨pre, mid, post, heq, hmid⟩
    refine ⟨pre ++ mid, post, heq, ?_, ?_⟩
    · rw [RMem_foldr_append]
      exact ⟨pre, mid, rfl, (RMem_cat_eps pre _).mpr (dotstar_mem pre), hmid⟩
    · exact (RMem_cat_eps post _).mpr (dotstar_mem post)

/-- Claim C8.  RegexMatcher anchors the (possibly wrapped) pattern and
match succeeds iff the anchored expression matches the full candidate:
with lazy true the pattern must match the whole string as given (exact
semantics), with lazy false the pattern is first wrapped in dot-star on
both sides, which makes match succeed iff some substring of the candidate
matches the pattern (containment semantics). -/
theorem c8_regex_matcher (p : String) (r : Regex) (s : String)
    (h : reParse p = some r) :
    (∃ m, mkRegexMatcher p true = .ok m ∧ (m.match s = true ↔ RMem s.data r)) ∧
    (∃ m, mkRegexMatcher p false = .ok m ∧
      (m.match s = true ↔
        ∃ pre mid post, s.data = pre ++ mid ++ post ∧ RMem mid r)) := by
  constructor
  · refine ⟨⟨r⟩, ?_, ?_⟩
    · have hmk : mkRegexMatcher p true =
          (match reParse p with
           | some r₂ => Except.ok (⟨r₂⟩ : RegexMatcher)
           | Option.none =>
             Except.error (.valueError ("error in regex " ++ p))) := rfl
      rw [hmk, h]
    · rw [show RegexMatcher.match ⟨r⟩ s = r.accepts s.data from rfl]
      exact accepts_iff s.data r
  · unfold reParse at h
    cases haux : reParseAux p.data [] with
    | none => rw [haux] at h; cases h
    | some stack =>
      rw [haux] at h
      have hr : r = assemble stack := (Option.some.inj h).symm
      refine ⟨⟨assemble (.star .dot :: (stack ++ [.star .dot]))⟩, ?_, ?_⟩
      · have hmk : mkRegexMatcher p false =
            (match reParse (".*" ++ p ++ ".*") with
             | some r₂ => Except.ok (⟨r₂⟩ : RegexMatcher)
             | Option.none =>
               Except.error (.valueError
                 ("error in regex " ++ (".*" ++ p ++ ".*")))) := rfl
        rw [hmk]
        rw [show reParse (".*" ++ p ++ ".*") =
          some (assemble (.star .dot :: (stack ++ [.star .dot]))) from by
            unfold reParse
            rw [reParse_wrap p stack haux]
            rfl]
      · rw [show RegexMatcher.match ⟨assemble (.star .dot :: (stack ++ [.star .dot]))⟩ s
          = (assemble (.star .dot :: (stack ++ [.star .dot]))).accepts s.data from rfl]
        rw [accepts_iff, assemble_wrap, hr]

/-- The regex the pattern foo compiles to. -/
def fooRegex : Regex := .cat (.chr 'f') (.cat (.chr 'o') (.cat (.chr 'o') .eps))

/-- Witness for C8 at the pattern foo, together with the concrete examples
of the claim: greedy foo accepts the candidate foo bar and rejects bar,
lazy foo rejects both. -/
theorem c8_witness :
    (regexAcc "foo" false "foo bar" = true ∧ regexAcc "foo" false "bar" = false ∧
     regexAcc "foo" true "foo bar" = false ∧ regexAcc "foo" true "bar" = false) ∧
    ((∃ m, mkRegexMatcher "foo" true = .ok m ∧
        (m.match "bar" = true ↔ RMem "bar".data fooRegex)) ∧
     (∃ m, mkRegexMatcher "foo" false = .ok m ∧
        (m.match "bar" = true ↔
          ∃ pre mid post, "bar".data = pre ++ mid ++ post ∧ RMem mid fooRegex))) :=
  ⟨⟨by decide, by decide, by decide, by decide⟩,
    c8_regex_matcher "foo" fooRegex "bar" (by decide)⟩

end ISearch
